import Mathlib

/-! Boolean expression calculator (Sem. 14, ExpressionCalculator.cpp)

A shallow embedding of `ExpressionCalculator.cpp`: truth assignments over the
letters `A..Z` (`BooleanInterpretation`), the expression tree
(`Variable`, `UnaryExpression`, `BinaryExpression`), the recursive parser
`parseExpression` and the brute-force checker `checkAllVariations`.

Conventions of the embedding.

* C++ `char` is `Char`, a C++ string (`MyString`, `StringView`) is `List Char`.
* The arrays `bool variables[CHARACTERS_COUNT]` are functions
  `Fin CHARACTERS_COUNT → Bool`; the members of that name are called `vars`
  here (`variables` is a reserved word).
* `size_t` values are `Nat`. The only arithmetic on them is `& 1`, `>> 1`, `++`
  and `1 << variablesCount` with `variablesCount ≤ 26`
  (`variablesCount_le`), none of which can wrap.
* A method that may throw returns `Except ExprError _`; a mutating method that
  may throw returns the outcome together with the state of the object after
  the call.
* Dereferencing `nullptr` is undefined behaviour in C++; the embedding marks
  it with the outcome `ExprError.nullDereference`.
* Writing outside the bounds of an array is undefined behaviour in C++; the
  embedding marks it with the outcome `ExprError.outOfBoundsWrite`. The only
  such write is `variables[ch - 'A'] = true` of `Variable::Variable` for a
  character outside `A..Z` (`newVariable`).
-/

namespace BoolCalc

/-! ## Constants -/

def AND : Char := '^'
def OR : Char := 'v'
def IMPL : Char := '>'
def IFF : Char := '='
def XOR : Char := '+'
def NEG : Char := '!'

/-- Modelled from the spec: the constant `CHARACTERS_COUNT` of the header
`ExpressionCalculator.h` (not part of the sources at hand); the spec fixes
26 variable letters, `A = 0 … Z = 25`. -/
abbrev CHARACTERS_COUNT : Nat := 26

/-- The outcomes other than a normal return. -/
inductive ExprError where
  /-- The exception `std::exception("Invalid character")`. -/
  | invalidCharacter
  /-- A `nullptr` was dereferenced (undefined behaviour in C++). -/
  | nullDereference
  /-- An array was written outside its bounds (undefined behaviour in C++). -/
  | outOfBoundsWrite
  deriving DecidableEq, Repr

deriving instance DecidableEq for Except

/-! ## BooleanInterpretation -/

/-- Modelled from the spec: the class `BooleanInterpretation` is declared in
the header; its only data member is the array `variables`, which a
default-constructed object holds all false ("constructed either empty
(all false) or from an integer"). -/
structure BooleanInterpretation where
  vars : Fin CHARACTERS_COUNT → Bool := fun _ => false

/-- `BooleanInterpretation::isValidCharacter`. -/
def isValidCharacter (ch : Char) : Bool :=
  decide ('A' ≤ ch) && decide (ch ≤ 'Z')

/-- The array index `ch - 'A'` of a valid character. -/
def charIndex (ch : Char) (h : isValidCharacter ch = true) : Fin CHARACTERS_COUNT :=
  ⟨ch.toNat - 'A'.toNat, by
    simp only [isValidCharacter, Bool.and_eq_true, decide_eq_true_eq] at h
    have h2 : ch.toNat ≤ 'Z'.toNat := h.2
    have h3 : 'Z'.toNat = 90 := by decide
    have h4 : 'A'.toNat = 65 := by decide
    show ch.toNat - 'A'.toNat < 26
    omega⟩

/-- `BooleanInterpretation::getValue`. -/
def BooleanInterpretation.getValue (self : BooleanInterpretation) (ch : Char) :
    Except ExprError Bool :=
  if h : isValidCharacter ch = true then
    .ok (self.vars (charIndex ch h))
  else
    .error .invalidCharacter

/-- `BooleanInterpretation::setValue`: the outcome of the call and the object
after it. -/
def BooleanInterpretation.setValue (self : BooleanInterpretation) (ch : Char) (value : Bool) :
    Except ExprError Unit × BooleanInterpretation :=
  if h : isValidCharacter ch = true then
    (.ok (), { vars := Function.update self.vars (charIndex ch h) value })
  else
    (.error .invalidCharacter, self)

/-- The character `'A' + i`. -/
def letter (i : Nat) : Char := Char.ofNat ('A'.toNat + i)

/-- The loop of `createFromNumber` over the remaining indices `i`, with the
current `number` and `result`. -/
def createFromNumberLoop (vars : Fin CHARACTERS_COUNT → Bool) :
    List (Fin CHARACTERS_COUNT) → Nat → BooleanInterpretation →
      Except ExprError BooleanInterpretation
  | [], _, result => .ok result
  | i :: rest, number, result =>
    if vars i = true then
      if number &&& 1 ≠ 0 then
        match result.setValue (letter i.val) true with
        | (.error e, _) => .error e
        | (.ok (), result1) => createFromNumberLoop vars rest (number >>> 1) result1
      else
        createFromNumberLoop vars rest (number >>> 1) result
    else
      createFromNumberLoop vars rest number result

/-- `BooleanInterpretation::createFromNumber`. -/
def createFromNumber (number : Nat) (vars : Fin CHARACTERS_COUNT → Bool) :
    Except ExprError BooleanInterpretation :=
  createFromNumberLoop vars (List.finRange CHARACTERS_COUNT) number {}

/-! ## Expression nodes -/

/-- The three node classes. The pointers to the children are owned and never
null in a constructed node (the constructors dereference them). A `Variable`
node for a character outside `A..Z` is built by no defined run of the program:
its constructor writes outside the array `variables`, see `newVariable`. -/
inductive BooleanExpression where
  | Variable (ch : Char)
  | UnaryExpression (operand : Char) (expression : BooleanExpression)
  | BinaryExpression (operand : Char) (left right : BooleanExpression)
  deriving DecidableEq, Repr

/-- Modelled from the spec: the member `variables` of the base class
`BooleanExpression` (declared in the header) before a constructor body runs:
no letter is marked. -/
def initialVariables : Fin CHARACTERS_COUNT → Bool := fun _ => false

/-- Modelled from the spec: the member `variablesCount` of the base class
before a constructor body runs; the spec has the count of a Binary node
"computed as the number of letters set in the union", so the increments
start from zero. -/
def initialVariablesCount : Nat := 0

/-- The member `variables` as the constructors fill it. The members are
written by the constructors only, so they are functions of the tree.
`Variable::Variable` writes `variables[ch - 'A']`. For a character outside
`A..Z` that write is outside the array and undefined behaviour, which
`newVariable` reports as `outOfBoundsWrite`: no node is constructed then, and
the entries given here for such a character belong to no constructed node
(the write does not land on any of the 26 entries). -/
def BooleanExpression.vars : BooleanExpression → Fin CHARACTERS_COUNT → Bool
  | .Variable ch =>
    if h : isValidCharacter ch = true then
      Function.update initialVariables (charIndex ch h) true
    else
      initialVariables
  | .UnaryExpression _ expression => fun i => expression.vars i
  | .BinaryExpression _ left right => fun i => left.vars i || right.vars i

/-- The counting loop of `BinaryExpression::BinaryExpression`:
`if (variables[i]) variablesCount++` for the indices of the list. -/
def countLoop (vars : Fin CHARACTERS_COUNT → Bool) :
    List (Fin CHARACTERS_COUNT) → Nat → Nat
  | [], variablesCount => variablesCount
  | i :: rest, variablesCount =>
    if vars i = true then countLoop vars rest (variablesCount + 1)
    else countLoop vars rest variablesCount

/-- The member `variablesCount` as the constructors fill it. -/
def BooleanExpression.variablesCount : BooleanExpression → Nat
  | .Variable _ => 1
  | .UnaryExpression _ expression => expression.variablesCount
  | .BinaryExpression operand left right =>
    countLoop (BooleanExpression.BinaryExpression operand left right).vars
      (List.finRange CHARACTERS_COUNT) initialVariablesCount

/-- The virtual method `evaluate` of the three node classes. The operators
`||` and `&&` of C++ do not evaluate their right operand when the left one
decides. -/
def BooleanExpression.evaluate :
    BooleanExpression → BooleanInterpretation → Except ExprError Bool
  | .Variable ch, interpretation => interpretation.getValue ch
  | .UnaryExpression operand expression, interpretation =>
    if operand ≠ NEG then .ok false
    else
      match expression.evaluate interpretation with
      | .error e => .error e
      | .ok v => .ok (!v)
  | .BinaryExpression operand left right, interpretation =>
    if operand = OR then
      match left.evaluate interpretation with
      | .error e => .error e
      | .ok l => if l then .ok true else right.evaluate interpretation
    else if operand = AND then
      match left.evaluate interpretation with
      | .error e => .error e
      | .ok l => if l then right.evaluate interpretation else .ok false
    else if operand = IMPL then
      match left.evaluate interpretation with
      | .error e => .error e
      | .ok l => if !l then .ok true else right.evaluate interpretation
    else if operand = IFF then
      match left.evaluate interpretation with
      | .error e => .error e
      | .ok l =>
        match right.evaluate interpretation with
        | .error e => .error e
        | .ok r => .ok (l == r)
    else if operand = XOR then
      match left.evaluate interpretation with
      | .error e => .error e
      | .ok l =>
        match right.evaluate interpretation with
        | .error e => .error e
        | .ok r => .ok (l != r)
    else .ok false

/-! ## Parser -/

/-- The function `isOperator` of the anonymous namespace. -/
def isOperator (ch : Char) : Bool :=
  ch == AND || ch == OR || ch == IFF || ch == IMPL || ch == XOR || ch == NEG

/-- Modelled from the spec: `StringView::substr(start, length)` of the string
utilities (external to the sources at hand): the `length` characters from
position `start`. -/
def substr (str : List Char) (start length : Nat) : List Char :=
  (str.drop start).take length

/-- The scanning loop of `parseExpression` over the characters of the interior
that are still to be visited, `i` being the index of the first of them:
the index and character at which the loop reaches its `return` statements, or
`none` when the loop runs to its end. -/
def scanLoop : List Char → Nat → Nat → Option (Nat × Char)
  | [], _, _ => none
  | c :: rest, i, bracketsCounter =>
    if c = '(' then scanLoop rest (i + 1) (bracketsCounter + 1)
    else if c = ')' then scanLoop rest (i + 1) (bracketsCounter + 1)
    else if isOperator c && bracketsCounter == 0 then some (i, c)
    else scanLoop rest (i + 1) bracketsCounter

/-- The expression `new Variable(ch)`: the constructor runs
`variables[ch - 'A'] = true` without a check of `ch`. For `ch` in `A..Z` the
index is in `0..25` and the node is built; for any other character the index
`ch - 'A'` is negative or at least 26, the write is outside the 26-entry
array, and the outcome is `outOfBoundsWrite`. -/
def newVariable (ch : Char) : Except ExprError (Option BooleanExpression) :=
  if isValidCharacter ch = true then .ok (some (.Variable ch))
  else .error .outOfBoundsWrite

/-- The expression `new UnaryExpression(operand, expression)` for a pointer
that may be null: the constructor reads `expression->variables`. -/
def newUnaryExpression (operand : Char) :
    Option BooleanExpression → Except ExprError (Option BooleanExpression)
  | none => .error .nullDereference
  | some expression => .ok (some (.UnaryExpression operand expression))

/-- The expression `new BinaryExpression(operand, left, right)` for pointers
that may be null: the constructor reads `left->variables` and
`right->variables`. -/
def newBinaryExpression (operand : Char) :
    Option BooleanExpression → Option BooleanExpression →
      Except ExprError (Option BooleanExpression)
  | some left, some right => .ok (some (.BinaryExpression operand left right))
  | _, _ => .error .nullDereference

/-- `ExpressionCalculator::parseExpression`: the pointer returned
(`none` for `nullptr`). -/
def parseExpression (str : List Char) : Except ExprError (Option BooleanExpression) :=
  if h0 : str.length = 0 then .ok none
  else if h1 : str.length = 1 then
    newVariable (str.get ⟨0, by omega⟩)
  else
    let strWithoutBrackets := substr str 1 (str.length - 2)
    let length := strWithoutBrackets.length
    match scanLoop strWithoutBrackets 0 0 with
    | none => .ok none
    | some (i, c) =>
      if c = NEG then
        match parseExpression (substr strWithoutBrackets (i + 1) (length - i - 1)) with
        | .error e => .error e
        | .ok expression => newUnaryExpression NEG expression
      else
        match parseExpression (substr strWithoutBrackets 0 i) with
        | .error e => .error e
        | .ok left =>
          match parseExpression (substr strWithoutBrackets (i + 1) (length - i - 1)) with
          | .error e => .error e
          | .ok right => newBinaryExpression c left right
termination_by str.length
decreasing_by
  all_goals simp_wf
  all_goals
    simp only [substr, List.length_take, List.length_drop]
    omega

/-! ## Checker and calculator -/

/-- The loop bound `size_t variationsCount = 1 << expression->variablesCount`
of `checkAllVariations`. -/
def variationsCount (expression : BooleanExpression) : Nat :=
  1 <<< expression.variablesCount

/-- The loop of `checkAllVariations` over the values of `i` still to come. -/
def checkAllVariationsLoop (expression : BooleanExpression) (expectedValue : Bool) :
    List Nat → Except ExprError Bool
  | [] => .ok true
  | i :: rest =>
    match createFromNumber i expression.vars with
    | .error e => .error e
    | .ok interpretation =>
      match expression.evaluate interpretation with
      | .error e => .error e
      | .ok value =>
        if value != expectedValue then .ok false
        else checkAllVariationsLoop expression expectedValue rest

/-- The function `checkAllVariations` of the anonymous namespace, for a pointer
that may be null. -/
def checkAllVariations (expression : Option BooleanExpression) (expectedValue : Bool) :
    Except ExprError Bool :=
  match expression with
  | none => .error .nullDereference
  | some expression =>
    checkAllVariationsLoop expression expectedValue (List.range (variationsCount expression))

/-- The class `ExpressionCalculator`: the owned root pointer. -/
structure ExpressionCalculator where
  expression : Option BooleanExpression
  deriving DecidableEq, Repr

/-- The constructor `ExpressionCalculator(const MyString& str)`. -/
def ExpressionCalculator.fromString (str : List Char) : Except ExprError ExpressionCalculator :=
  match parseExpression str with
  | .error e => .error e
  | .ok expression => .ok { expression := expression }

/-- `ExpressionCalculator::isTautology`. -/
def ExpressionCalculator.isTautology (self : ExpressionCalculator) : Except ExprError Bool :=
  checkAllVariations self.expression true

/-- `ExpressionCalculator::isContradiction`. -/
def ExpressionCalculator.isContradiction (self : ExpressionCalculator) : Except ExprError Bool :=
  checkAllVariations self.expression false

/-! ## Vocabulary of the specification -/

/-- Every letter held by a `Variable` node of the tree is in `A..Z`. -/
def lettersValid : BooleanExpression → Bool
  | .Variable ch => isValidCharacter ch
  | .UnaryExpression _ expression => lettersValid expression
  | .BinaryExpression _ left right => lettersValid left && lettersValid right

/-- The letters that appear in the subtree, in order of appearance, with
repetitions. -/
def letters : BooleanExpression → List Char
  | .Variable ch => [ch]
  | .UnaryExpression _ expression => letters expression
  | .BinaryExpression _ left right => letters left ++ letters right

/-- The number of active letters of a mask that come before letter `i` in
ascending letter order: the position of `i` among the active letters. -/
def activeBefore (vars : Fin CHARACTERS_COUNT → Bool) (i : Fin CHARACTERS_COUNT) : Nat :=
  ((List.finRange CHARACTERS_COUNT).filter (fun j => decide (j < i) && vars j)).length

/-- The number of active letters of a mask. -/
def activeCount (vars : Fin CHARACTERS_COUNT → Bool) : Nat :=
  ((List.finRange CHARACTERS_COUNT).filter (fun j => vars j)).length

/-- The mask with the letters `A` and `B` active. -/
def maskAB : Fin CHARACTERS_COUNT → Bool := fun i => decide (i.val < 2)

/-- Position `k` of the interior `t` holds an operator character and no `'('`
or `')'` comes before it in `t`. -/
def topOperatorAt (t : List Char) (k : Nat) : Bool :=
  match t[k]? with
  | some c => isOperator c && (t.take k).all (fun d => d != '(' && d != ')')
  | none => false

/-- Position `i` is the first position of `t` that holds an operator character
with no `'('` or `')'` before it. -/
def firstTopOperator (t : List Char) (i : Nat) : Bool :=
  topOperatorAt t i && (List.range i).all (fun k => !topOperatorAt t k)

/-- The tree `(A v (!A))`. -/
def exampleTautology : BooleanExpression :=
  .BinaryExpression 'v' (.Variable 'A') (.UnaryExpression '!' (.Variable 'A'))

/-- The tree `(A ^ (!A))`. -/
def exampleContradiction : BooleanExpression :=
  .BinaryExpression '^' (.Variable 'A') (.UnaryExpression '!' (.Variable 'A'))

/-- The fully parenthesised rendering of a tree: a `Variable` is its letter,
a Unary node is `(` operator operand `)`, a Binary node is
`(` left operator right `)`. -/
def render : BooleanExpression → List Char
  | .Variable ch => [ch]
  | .UnaryExpression operand expression => '(' :: operand :: (render expression ++ [')'])
  | .BinaryExpression operand left right =>
    '(' :: (render left ++ operand :: (render right ++ [')']))

/-- The character is one of the five binary operator characters. -/
def isBinaryOperator (ch : Char) : Bool :=
  ch == '^' || ch == 'v' || ch == '>' || ch == '=' || ch == '+'

/-- The trees whose `Variable` letters are in `A..Z`, whose Unary nodes have
the operator `'!'`, whose Binary nodes have a binary operator character, and in
which the left operand of every Binary node is a `Variable`. -/
def leftVariableForm : BooleanExpression → Bool
  | .Variable ch => isValidCharacter ch
  | .UnaryExpression operand expression => operand == '!' && leftVariableForm expression
  | .BinaryExpression operand (.Variable ch) right =>
    isBinaryOperator operand && isValidCharacter ch && leftVariableForm right
  | .BinaryExpression _ _ _ => false

/-! ## Auxiliary definitions of the proofs -/

/-- The array that the loop of `createFromNumber` leaves, as a function of the
array `result` it starts from (the loop without the error plumbing). -/
def fillLoop (vars : Fin CHARACTERS_COUNT → Bool) :
    List (Fin CHARACTERS_COUNT) → Nat → (Fin CHARACTERS_COUNT → Bool) →
      (Fin CHARACTERS_COUNT → Bool)
  | [], _, result => result
  | i :: rest, number, result =>
    if vars i = true then
      if number % 2 = 1 then fillLoop vars rest (number / 2) (Function.update result i true)
      else fillLoop vars rest (number / 2) result
    else fillLoop vars rest number result

/-- The value of `evaluate`, `false` standing for an error. -/
def value (expression : BooleanExpression) (interpretation : BooleanInterpretation) : Bool :=
  match expression.evaluate interpretation with
  | .ok v => v
  | .error _ => false

/-- The recursion of `parseExpression` with a bound on its depth: `none` when
the bound is used up before the call returns, the outcome of the call
otherwise. -/
def parseExpressionFuel :
    Nat → List Char → Option (Except ExprError (Option BooleanExpression))
  | 0, _ => none
  | fuel + 1, str =>
    if h0 : str.length = 0 then some (.ok none)
    else if h1 : str.length = 1 then
      some (newVariable (str.get ⟨0, by omega⟩))
    else
      let strWithoutBrackets := substr str 1 (str.length - 2)
      let length := strWithoutBrackets.length
      match scanLoop strWithoutBrackets 0 0 with
      | none => some (.ok none)
      | some (i, c) =>
        if c = NEG then
          match parseExpressionFuel fuel (substr strWithoutBrackets (i + 1) (length - i - 1)) with
          | none => none
          | some (.error e) => some (.error e)
          | some (.ok expression) => some (newUnaryExpression NEG expression)
        else
          match parseExpressionFuel fuel (substr strWithoutBrackets 0 i) with
          | none => none
          | some (.error e) => some (.error e)
          | some (.ok left) =>
            match parseExpressionFuel fuel
                (substr strWithoutBrackets (i + 1) (length - i - 1)) with
            | none => none
            | some (.error e) => some (.error e)
            | some (.ok right) => some (newBinaryExpression c left right)

/-! ## Letters and indices -/

theorem substr_length_le (str : List Char) (start length : Nat) :
    (substr str start length).length ≤ str.length := by
  simp only [substr, List.length_take, List.length_drop]
  omega

theorem isValidCharacter_iff (ch : Char) :
    isValidCharacter ch = true ↔ ('A' ≤ ch ∧ ch ≤ 'Z') := by
  simp [isValidCharacter]

theorem letter_valid : ∀ i : Fin CHARACTERS_COUNT, isValidCharacter (letter i.val) = true := by
  decide

theorem letter_toNat : ∀ i : Fin CHARACTERS_COUNT, (letter i.val).toNat - 'A'.toNat = i.val := by
  decide

theorem charIndex_letter (i : Fin CHARACTERS_COUNT) (h : isValidCharacter (letter i.val) = true) :
    charIndex (letter i.val) h = i :=
  Fin.ext (letter_toNat i)

theorem valid_toNat (ch : Char) (h : isValidCharacter ch = true) :
    65 ≤ ch.toNat ∧ ch.toNat ≤ 90 := by
  simp only [isValidCharacter, Bool.and_eq_true, decide_eq_true_eq] at h
  have h1 : 'A'.toNat ≤ ch.toNat := h.1
  have h2 : ch.toNat ≤ 'Z'.toNat := h.2
  have h3 : 'Z'.toNat = 90 := by decide
  have h4 : 'A'.toNat = 65 := by decide
  omega

theorem char_eq_of_toNat_eq (a b : Char) (h : a.toNat = b.toNat) : a = b := by
  apply Char.ext
  apply UInt32.ext
  exact h

theorem charIndex_val (ch : Char) (h : isValidCharacter ch = true) :
    (charIndex ch h).val = ch.toNat - 65 := rfl

theorem charIndex_injective (a b : Char) (ha : isValidCharacter a = true)
    (hb : isValidCharacter b = true) (h : charIndex a ha = charIndex b hb) : a = b := by
  have h1 := valid_toNat a ha
  have h2 := valid_toNat b hb
  have h3 : (charIndex a ha).val = (charIndex b hb).val := by rw [h]
  rw [charIndex_val, charIndex_val] at h3
  apply char_eq_of_toNat_eq
  omega

theorem letter_charIndex (ch : Char) (h : isValidCharacter ch = true) :
    letter (charIndex ch h).val = ch :=
  charIndex_injective _ _ (letter_valid _) h (charIndex_letter _ _)

theorem letter_injective (i j : Fin CHARACTERS_COUNT) (h : letter i.val = letter j.val) :
    i = j := by
  have hi := charIndex_letter i (letter_valid i)
  have hj := charIndex_letter j (letter_valid j)
  rw [← hi, ← hj]
  congr 1

/-! ## getValue and setValue -/

theorem getValue_of_valid (self : BooleanInterpretation) (ch : Char)
    (h : isValidCharacter ch = true) :
    self.getValue ch = .ok (self.vars (charIndex ch h)) := by
  simp [BooleanInterpretation.getValue, h]

theorem getValue_of_invalid (self : BooleanInterpretation) (ch : Char)
    (h : ¬ isValidCharacter ch = true) :
    self.getValue ch = .error .invalidCharacter := by
  simp [BooleanInterpretation.getValue, h]

theorem setValue_of_valid (self : BooleanInterpretation) (ch : Char) (value : Bool)
    (h : isValidCharacter ch = true) :
    self.setValue ch value =
      (.ok (), { vars := Function.update self.vars (charIndex ch h) value }) := by
  simp [BooleanInterpretation.setValue, h]

theorem setValue_of_invalid (self : BooleanInterpretation) (ch : Char) (value : Bool)
    (h : ¬ isValidCharacter ch = true) :
    self.setValue ch value = (.error .invalidCharacter, self) := by
  simp [BooleanInterpretation.setValue, h]

theorem getValue_setValue_other (self : BooleanInterpretation) (ch other : Char) (value : Bool)
    (h : isValidCharacter ch = true) (hne : other ≠ ch) :
    (self.setValue ch value).2.getValue other = self.getValue other := by
  rw [setValue_of_valid self ch value h]
  by_cases ho : isValidCharacter other = true
  · rw [getValue_of_valid _ _ ho, getValue_of_valid _ _ ho]
    have hidx : charIndex other ho ≠ charIndex ch h :=
      fun heq => hne (charIndex_injective _ _ ho h heq)
    simp [Function.update_noteq hidx]
  · rw [getValue_of_invalid _ _ ho, getValue_of_invalid _ _ ho]

/-- C5: `getValue(ch)` and `setValue(ch, value)` fail with the
invalid-character error exactly when `ch` is outside `'A'..'Z'` (so for `'1'`
and `'a'`); a failing `setValue` leaves the interpretation unchanged; for a
valid `ch`, `getValue` returns the stored value of that letter, `setValue`
succeeds, afterwards `getValue(ch)` returns `value`, and `getValue` of every
other character is what it was before. -/
theorem getValue_setValue_contract (self : BooleanInterpretation) (ch : Char) (value : Bool) :
    (self.getValue ch = .error .invalidCharacter ↔ ¬ ('A' ≤ ch ∧ ch ≤ 'Z')) ∧
    ((self.setValue ch value).1 = .error .invalidCharacter ↔ ¬ ('A' ≤ ch ∧ ch ≤ 'Z')) ∧
    (¬ ('A' ≤ ch ∧ ch ≤ 'Z') → (self.setValue ch value).2 = self) ∧
    self.getValue '1' = .error .invalidCharacter ∧
    self.getValue 'a' = .error .invalidCharacter ∧
    (self.setValue '1' value).1 = .error .invalidCharacter ∧
    (self.setValue 'a' value).1 = .error .invalidCharacter ∧
    (∀ h : isValidCharacter ch = true,
      self.getValue ch = .ok (self.vars (charIndex ch h)) ∧
      (self.setValue ch value).1 = .ok () ∧
      (self.setValue ch value).2.getValue ch = .ok value ∧
      (∀ i : Fin CHARACTERS_COUNT, i ≠ charIndex ch h →
        (self.setValue ch value).2.vars i = self.vars i) ∧
      (∀ other : Char, other ≠ ch →
        (self.setValue ch value).2.getValue other = self.getValue other)) := by
  rw [← isValidCharacter_iff]
  refine ⟨?_, ?_, ?_, ?_, ?_, ?_, ?_, ?_⟩
  · by_cases h : isValidCharacter ch = true
    · simp [getValue_of_valid _ _ h, h]
    · simp [getValue_of_invalid _ _ h, h]
  · by_cases h : isValidCharacter ch = true
    · simp [setValue_of_valid _ _ _ h, h]
    · simp [setValue_of_invalid _ _ _ h, h]
  · intro h
    rw [setValue_of_invalid _ _ _ h]
  · exact getValue_of_invalid _ _ (by decide)
  · exact getValue_of_invalid _ _ (by decide)
  · rw [setValue_of_invalid _ _ _ (by decide)]
  · rw [setValue_of_invalid _ _ _ (by decide)]
  · intro h
    refine ⟨getValue_of_valid _ _ h, ?_, ?_, ?_, ?_⟩
    · rw [setValue_of_valid _ _ _ h]
    · rw [setValue_of_valid _ _ _ h, getValue_of_valid _ _ h]
      simp
    · intro i hi
      rw [setValue_of_valid _ _ _ h]
      simp [Function.update_noteq hi]
    · intro other hne
      exact getValue_setValue_other self ch other value h hne

/-- Witness of C5 at the all-false interpretation, letter `'C'`, value `true`. -/
theorem getValue_setValue_contract_witness :
    (({} : BooleanInterpretation).setValue 'C' true).2.getValue 'C' = .ok true ∧
    (({} : BooleanInterpretation).setValue 'C' true).2.getValue 'D' = .ok false :=
  have h := (getValue_setValue_contract {} 'C' true).2.2.2.2.2.2.2 (by decide)
  ⟨h.2.2.1, (h.2.2.2.2 'D' (by decide)).trans (by decide)⟩

/-! ## evaluate -/

theorem evaluate_binary (operand : Char) (left right : BooleanExpression)
    (interpretation : BooleanInterpretation) (l r : Bool)
    (hl : left.evaluate interpretation = .ok l)
    (hr : right.evaluate interpretation = .ok r) :
    (BooleanExpression.BinaryExpression operand left right).evaluate interpretation =
      .ok (if operand = 'v' then l || r
           else if operand = '^' then l && r
           else if operand = '>' then !l || r
           else if operand = '=' then l == r
           else if operand = '+' then l != r
           else false) := by
  simp only [BooleanExpression.evaluate, hl, hr, OR, AND, IMPL, IFF, XOR]
  by_cases h1 : operand = 'v'
  · subst h1; cases l <;> simp
  by_cases h2 : operand = '^'
  · subst h2; cases l <;> simp
  by_cases h3 : operand = '>'
  · subst h3; cases l <;> simp
  by_cases h4 : operand = '='
  · subst h4; simp
  by_cases h5 : operand = '+'
  · subst h5; simp
  simp [h1, h2, h3, h4, h5]

/-- C6: when the children evaluate without error to `l` and `r`,
`BinaryExpression::evaluate` returns `l || r` for `'v'`, `l && r` for `'^'`,
`!l || r` for `'>'`, `l == r` for `'='`, `l != r` for `'+'` and `false` for
every other operator character. -/
theorem binaryExpression_evaluate_table (operand : Char) (left right : BooleanExpression)
    (interpretation : BooleanInterpretation) (l r : Bool)
    (hl : left.evaluate interpretation = .ok l)
    (hr : right.evaluate interpretation = .ok r) :
    (BooleanExpression.BinaryExpression operand left right).evaluate interpretation =
      .ok (if operand = 'v' then l || r
           else if operand = '^' then l && r
           else if operand = '>' then !l || r
           else if operand = '=' then l == r
           else if operand = '+' then l != r
           else false) :=
  evaluate_binary operand left right interpretation l r hl hr

/-- Witness of C6: `A > B` under the all-false interpretation. -/
theorem binaryExpression_evaluate_table_witness :
    (BooleanExpression.BinaryExpression '>' (.Variable 'A') (.Variable 'B')).evaluate {} =
      .ok true :=
  binaryExpression_evaluate_table '>' (.Variable 'A') (.Variable 'B') {} false false
    (by decide) (by decide)

theorem evaluate_unary (operand : Char) (expression : BooleanExpression)
    (interpretation : BooleanInterpretation) :
    (BooleanExpression.UnaryExpression operand expression).evaluate interpretation =
      if operand = '!' then (expression.evaluate interpretation).map (fun v => !v)
      else .ok false := by
  simp only [BooleanExpression.evaluate, NEG]
  by_cases h : operand = '!'
  · simp only [h, ne_eq, not_true_eq_false, if_false, if_true]
    cases expression.evaluate interpretation <;> rfl
  · simp [h]

/-- C7: `UnaryExpression::evaluate` returns the negation of its child's
evaluation (the child's error, when the child fails) for the operator `'!'`,
and `false`, whatever the child is, for every other operator character. -/
theorem unaryExpression_evaluate_table (operand : Char) (expression : BooleanExpression)
    (interpretation : BooleanInterpretation) :
    (BooleanExpression.UnaryExpression operand expression).evaluate interpretation =
      if operand = '!' then (expression.evaluate interpretation).map (fun v => !v)
      else .ok false :=
  evaluate_unary operand expression interpretation

/-! ## createFromNumber -/

theorem setValue_letter (result : BooleanInterpretation) (i : Fin CHARACTERS_COUNT)
    (value : Bool) :
    result.setValue (letter i.val) value =
      (.ok (), { vars := Function.update result.vars i value }) := by
  rw [setValue_of_valid _ _ _ (letter_valid i), charIndex_letter]

theorem createFromNumberLoop_eq (vars : Fin CHARACTERS_COUNT → Bool)
    (l : List (Fin CHARACTERS_COUNT)) :
    ∀ (number : Nat) (result : BooleanInterpretation),
      createFromNumberLoop vars l number result =
        .ok { vars := fillLoop vars l number result.vars } := by
  induction l with
  | nil => intro number result; rfl
  | cons i rest ih =>
    intro number result
    simp only [createFromNumberLoop, fillLoop, setValue_letter, Nat.and_one_is_mod,
      Nat.shiftRight_one]
    by_cases hv : vars i = true
    · by_cases hb : number % 2 = 1
      · have hb2 : number % 2 ≠ 0 := by omega
        simp only [hv, hb, hb2, if_true, ne_eq, not_false_eq_true]
        exact ih _ _
      · have hb2 : number % 2 = 0 := by omega
        simp only [hv, hb, hb2, if_true, if_false, ne_eq, not_true_eq_false]
        exact ih _ _
    · simp only [hv, if_false]
      exact ih _ _

theorem createFromNumber_eq (number : Nat) (vars : Fin CHARACTERS_COUNT → Bool) :
    createFromNumber number vars =
      .ok { vars := fillLoop vars (List.finRange CHARACTERS_COUNT) number (fun _ => false) } :=
  createFromNumberLoop_eq vars _ number {}

theorem fillLoop_of_not_mem (vars : Fin CHARACTERS_COUNT → Bool)
    (l : List (Fin CHARACTERS_COUNT)) (j : Fin CHARACTERS_COUNT) (hj : j ∉ l) :
    ∀ (number : Nat) (result : Fin CHARACTERS_COUNT → Bool),
      fillLoop vars l number result j = result j := by
  induction l with
  | nil => intro number result; rfl
  | cons i rest ih =>
    intro number result
    have hji : j ≠ i := fun h => hj (h ▸ List.mem_cons_self _ _)
    have hjr : j ∉ rest := fun h => hj (List.mem_cons_of_mem _ h)
    simp only [fillLoop]
    split_ifs
    · rw [ih hjr, Function.update_noteq hji]
    · exact ih hjr _ _
    · exact ih hjr _ _

/-- The closed form of the loop over a list of distinct indices: index `j` of
the list, when active, receives the bit of `number` whose position is the
number of active indices that come before `j` in the list. -/
theorem fillLoop_closed (vars : Fin CHARACTERS_COUNT → Bool)
    (l : List (Fin CHARACTERS_COUNT)) (hl : l.Nodup) (j : Fin CHARACTERS_COUNT) :
    ∀ (number : Nat) (result : Fin CHARACTERS_COUNT → Bool),
      fillLoop vars l number result j =
        (result j || (decide (j ∈ l) && vars j &&
          number.testBit (List.countP vars (l.takeWhile (fun i => i != j))))) := by
  induction l with
  | nil => intro number result; simp [fillLoop]
  | cons i rest ih =>
    intro number result
    have hir : i ∉ rest := (List.nodup_cons.mp hl).1
    have hr : rest.Nodup := (List.nodup_cons.mp hl).2
    by_cases hji : j = i
    · subst hji
      simp only [fillLoop]
      split_ifs with hv hb
      · rw [fillLoop_of_not_mem vars rest j hir]
        simp [hv, Nat.testBit_zero, hb]
      · rw [fillLoop_of_not_mem vars rest j hir]
        simp [hv, Nat.testBit_zero, hb]
      · rw [fillLoop_of_not_mem vars rest j hir]
        simp [hv]
    · have hij : i ≠ j := fun h => hji h.symm
      have htw : (i :: rest).takeWhile (fun k => k != j) =
          i :: rest.takeWhile (fun k => k != j) := by
        have hne : (i != j) = true := by simpa using hij
        rw [List.takeWhile_cons]
        simp only [hne, if_true]
      rw [htw]
      simp only [fillLoop, List.mem_cons, hji, false_or]
      split_ifs with hv hb
      · rw [ih hr, Function.update_noteq hji, List.countP_cons_of_pos _ _ hv,
          Nat.testBit_succ]
      · rw [ih hr, List.countP_cons_of_pos _ _ hv, Nat.testBit_succ]
      · rw [ih hr, List.countP_cons_of_neg _ _ hv]

theorem takeWhile_finRange :
    ∀ j : Fin CHARACTERS_COUNT,
      (List.finRange CHARACTERS_COUNT).takeWhile (fun i => i != j) =
        (List.finRange CHARACTERS_COUNT).filter (fun i => decide (i < j)) := by
  decide

theorem countP_takeWhile_finRange (vars : Fin CHARACTERS_COUNT → Bool)
    (j : Fin CHARACTERS_COUNT) :
    List.countP vars ((List.finRange CHARACTERS_COUNT).takeWhile (fun i => i != j)) =
      activeBefore vars j := by
  rw [takeWhile_finRange, List.countP_filter, List.countP_eq_length_filter, activeBefore]
  congr 1
  apply List.filter_congr
  intro x _
  exact Bool.and_comm _ _

theorem mem_finRange_26 (j : Fin CHARACTERS_COUNT) : j ∈ List.finRange CHARACTERS_COUNT :=
  List.mem_finRange j

theorem fillLoop_finRange (vars : Fin CHARACTERS_COUNT → Bool) (number : Nat)
    (j : Fin CHARACTERS_COUNT) :
    fillLoop vars (List.finRange CHARACTERS_COUNT) number (fun _ => false) j =
      (vars j && number.testBit (activeBefore vars j)) := by
  rw [fillLoop_closed vars _ (List.nodup_finRange _) j, countP_takeWhile_finRange]
  simp [mem_finRange_26]

/-- C3: `createFromNumber(n, mask)` returns the interpretation in which an
active letter `i` of the mask holds bit `activeBefore mask i` of `n`, that is
the `j`-th active letter in ascending order holds bit `j`, and an inactive
letter holds `false`; with the mask `{A, B}` the numbers 0, 1, 2, 3 give
`(A, B)` = (false, false), (true, false), (false, true), (true, true). -/
theorem createFromNumber_bits (n : Nat) (vars : Fin CHARACTERS_COUNT → Bool) :
    createFromNumber n vars =
        .ok { vars := fun i => vars i && n.testBit (activeBefore vars i) } ∧
    (createFromNumber 0 maskAB).map (fun r => (r.getValue 'A', r.getValue 'B')) =
        .ok (.ok false, .ok false) ∧
    (createFromNumber 1 maskAB).map (fun r => (r.getValue 'A', r.getValue 'B')) =
        .ok (.ok true, .ok false) ∧
    (createFromNumber 2 maskAB).map (fun r => (r.getValue 'A', r.getValue 'B')) =
        .ok (.ok false, .ok true) ∧
    (createFromNumber 3 maskAB).map (fun r => (r.getValue 'A', r.getValue 'B')) =
        .ok (.ok true, .ok true) := by
  refine ⟨?_, by decide, by decide, by decide, by decide⟩
  rw [createFromNumber_eq]
  congr 2
  funext j
  exact fillLoop_finRange vars n j

/-- Every array that is `false` on the inactive indices of the list and agrees
with `result` off the list is reached by the loop from some number below
`2 ^ (number of active indices of the list)`. -/
theorem fillLoop_surjective (vars : Fin CHARACTERS_COUNT → Bool)
    (l : List (Fin CHARACTERS_COUNT)) (hl : l.Nodup) (target : Fin CHARACTERS_COUNT → Bool) :
    ∀ result : Fin CHARACTERS_COUNT → Bool, (∀ j ∈ l, result j = false) →
      ∃ n, n < 2 ^ List.countP vars l ∧
        ∀ j, fillLoop vars l n result j =
          if j ∈ l then (vars j && target j) else result j := by
  induction l with
  | nil =>
    intro result _
    exact ⟨0, by simp, fun j => by simp [fillLoop]⟩
  | cons i rest ih =>
    intro result hres
    have hir : i ∉ rest := (List.nodup_cons.mp hl).1
    have hr : rest.Nodup := (List.nodup_cons.mp hl).2
    have hresi : result i = false := hres i (List.mem_cons_self _ _)
    have hresr : ∀ j ∈ rest, result j = false := fun j hj => hres j (List.mem_cons_of_mem _ hj)
    by_cases hv : vars i = true
    · by_cases ht : target i = true
      · have hupd : ∀ j ∈ rest, Function.update result i true j = false := by
          intro j hj
          have hji : j ≠ i := fun h => hir (h ▸ hj)
          rw [Function.update_noteq hji]
          exact hresr j hj
        obtain ⟨m, hm, hspec⟩ := ih hr (Function.update result i true) hupd
        refine ⟨2 * m + 1, ?_, ?_⟩
        · rw [List.countP_cons_of_pos _ _ hv, pow_succ]
          omega
        · intro j
          have h1 : (2 * m + 1) % 2 = 1 := by omega
          have h2 : (2 * m + 1) / 2 = m := by omega
          simp only [fillLoop, hv, h1, h2, if_true]
          rw [hspec j]
          by_cases hji : j = i
          · subst hji
            simp [hir, hv, ht]
          · simp [hji, Function.update_noteq hji]
      · obtain ⟨m, hm, hspec⟩ := ih hr result hresr
        refine ⟨2 * m, ?_, ?_⟩
        · rw [List.countP_cons_of_pos _ _ hv, pow_succ]
          omega
        · intro j
          have h1 : ¬ (2 * m) % 2 = 1 := by omega
          have h2 : (2 * m) / 2 = m := by omega
          simp only [fillLoop, hv, h1, h2, if_true, if_false]
          rw [hspec j]
          by_cases hji : j = i
          · subst hji
            simp [hir, hv, ht, hresi]
          · simp [hji]
    · obtain ⟨m, hm, hspec⟩ := ih hr result hresr
      refine ⟨m, ?_, ?_⟩
      · rw [List.countP_cons_of_neg _ _ hv]
        exact hm
      · intro j
        simp only [fillLoop, hv, Bool.false_eq_true, if_false]
        rw [hspec j]
        by_cases hji : j = i
        · subst hji
          simp [hir, hv, hresi]
        · simp [hji]

/-- Two numbers below `2 ^ (number of active indices of the list)` from which
the loop leaves the same array are equal. -/
theorem fillLoop_injective (vars : Fin CHARACTERS_COUNT → Bool)
    (l : List (Fin CHARACTERS_COUNT)) (hl : l.Nodup) :
    ∀ (result : Fin CHARACTERS_COUNT → Bool) (n m : Nat), (∀ j ∈ l, result j = false) →
      n < 2 ^ List.countP vars l → m < 2 ^ List.countP vars l →
      fillLoop vars l n result = fillLoop vars l m result → n = m := by
  induction l with
  | nil =>
    intro result n m _ hn hm _
    simp at hn hm
    omega
  | cons i rest ih =>
    intro result n m hres hn hm heq
    have hir : i ∉ rest := (List.nodup_cons.mp hl).1
    have hr : rest.Nodup := (List.nodup_cons.mp hl).2
    have hresi : result i = false := hres i (List.mem_cons_self _ _)
    have hresr : ∀ j ∈ rest, result j = false := fun j hj => hres j (List.mem_cons_of_mem _ hj)
    have hupd : ∀ j ∈ rest, Function.update result i true j = false := by
      intro j hj
      have hji : j ≠ i := fun h => hir (h ▸ hj)
      rw [Function.update_noteq hji]
      exact hresr j hj
    by_cases hv : vars i = true
    · rw [List.countP_cons_of_pos _ _ hv, pow_succ] at hn hm
      have hn2 : n / 2 < 2 ^ List.countP vars rest := by omega
      have hm2 : m / 2 < 2 ^ List.countP vars rest := by omega
      have hi := congrFun heq i
      simp only [fillLoop, hv, if_true] at heq hi
      by_cases hbn : n % 2 = 1
      · by_cases hbm : m % 2 = 1
        · simp only [hbn, hbm, if_true] at heq
          have := ih hr _ _ _ hupd hn2 hm2 heq
          omega
        · simp only [hbn, hbm, if_true, if_false] at hi
          rw [fillLoop_of_not_mem vars rest i hir, fillLoop_of_not_mem vars rest i hir] at hi
          simp [hresi] at hi
      · by_cases hbm : m % 2 = 1
        · simp only [hbn, hbm, if_true, if_false] at hi
          rw [fillLoop_of_not_mem vars rest i hir, fillLoop_of_not_mem vars rest i hir] at hi
          simp [hresi] at hi
        · simp only [hbn, hbm, if_false] at heq
          have := ih hr _ _ _ hresr hn2 hm2 heq
          omega
    · rw [List.countP_cons_of_neg _ _ hv] at hn hm
      simp only [fillLoop, hv, Bool.false_eq_true, if_false] at heq
      exact ih hr _ _ _ hresr hn hm heq

theorem activeCount_eq_countP (vars : Fin CHARACTERS_COUNT → Bool) :
    activeCount vars = List.countP vars (List.finRange CHARACTERS_COUNT) := by
  rw [activeCount, List.countP_eq_length_filter]

theorem createFromNumber_into (vars : Fin CHARACTERS_COUNT → Bool) (n : Nat) :
    ∃ r, createFromNumber n vars = .ok r ∧ ∀ i, vars i = false → r.vars i = false := by
  refine ⟨_, createFromNumber_eq n vars, ?_⟩
  intro i hi
  show fillLoop vars (List.finRange CHARACTERS_COUNT) n (fun _ => false) i = false
  rw [fillLoop_finRange, hi]
  rfl

theorem createFromNumber_one_to_one (vars : Fin CHARACTERS_COUNT → Bool) (n m : Nat)
    (hn : n < 2 ^ activeCount vars) (hm : m < 2 ^ activeCount vars)
    (heq : createFromNumber n vars = createFromNumber m vars) : n = m := by
  rw [activeCount_eq_countP] at hn hm
  rw [createFromNumber_eq, createFromNumber_eq] at heq
  have h2 : fillLoop vars (List.finRange CHARACTERS_COUNT) n (fun _ => false) =
      fillLoop vars (List.finRange CHARACTERS_COUNT) m (fun _ => false) := by
    injection heq with h
    injection h
  exact fillLoop_injective vars _ (List.nodup_finRange _) _ n m (fun _ _ => rfl) hn hm h2

theorem createFromNumber_onto (vars : Fin CHARACTERS_COUNT → Bool) (r : BooleanInterpretation)
    (hr : ∀ i, vars i = false → r.vars i = false) :
    ∃ n, n < 2 ^ activeCount vars ∧ createFromNumber n vars = .ok r := by
  obtain ⟨n, hn, hspec⟩ := fillLoop_surjective vars _ (List.nodup_finRange _) r.vars
    (fun _ => false) (fun _ _ => rfl)
  refine ⟨n, by rw [activeCount_eq_countP]; exact hn, ?_⟩
  rw [createFromNumber_eq]
  congr 1
  cases r with
  | mk rv =>
    congr 1
    funext j
    rw [hspec j]
    simp only [mem_finRange_26, if_true]
    cases hvj : vars j
    · rw [Bool.false_and]
      exact (hr j hvj).symm
    · rw [Bool.true_and]

/-- C4: for a mask with `k = activeCount mask` active letters,
`createFromNumber(., mask)` maps every number to an interpretation that is
false on every inactive letter, is injective on the numbers below `2 ^ k`, and
every interpretation that is false on every inactive letter is
`createFromNumber(n, mask)` for some `n < 2 ^ k`. -/
theorem createFromNumber_bijection (vars : Fin CHARACTERS_COUNT → Bool) :
    (∀ n, ∃ r, createFromNumber n vars = .ok r ∧ ∀ i, vars i = false → r.vars i = false) ∧
    (∀ n m, n < 2 ^ activeCount vars → m < 2 ^ activeCount vars →
      createFromNumber n vars = createFromNumber m vars → n = m) ∧
    (∀ r : BooleanInterpretation, (∀ i, vars i = false → r.vars i = false) →
      ∃ n, n < 2 ^ activeCount vars ∧ createFromNumber n vars = .ok r) :=
  ⟨createFromNumber_into vars, createFromNumber_one_to_one vars, createFromNumber_onto vars⟩

/-- Witness of C4 at the mask `{A, B}`: the numbers 1 and 2 give different
interpretations, and the interpretation with only `B` true is reached. -/
theorem createFromNumber_bijection_witness :
    (createFromNumber 1 maskAB = createFromNumber 2 maskAB → 1 = 2) ∧
    ∃ n, n < 2 ^ activeCount maskAB ∧
      createFromNumber n maskAB = .ok { vars := fun i => decide (i.val = 1) } :=
  ⟨(createFromNumber_bijection maskAB).2.1 1 2 (by decide) (by decide),
   (createFromNumber_bijection maskAB).2.2 { vars := fun i => decide (i.val = 1) }
     (by decide)⟩

/-! ## Occurrence set and occurrence count -/

theorem letters_valid_of_lettersValid (e : BooleanExpression) (h : lettersValid e = true) :
    ∀ ch ∈ letters e, isValidCharacter ch = true := by
  induction e with
  | Variable c =>
    intro ch hch
    simp only [letters, List.mem_singleton] at hch
    subst hch
    exact h
  | UnaryExpression _ expression ih => exact ih h
  | BinaryExpression _ left right ihl ihr =>
    simp only [lettersValid, Bool.and_eq_true] at h
    intro ch hch
    simp only [letters, List.mem_append] at hch
    cases hch with
    | inl hc => exact ihl h.1 ch hc
    | inr hc => exact ihr h.2 ch hc

theorem vars_iff_mem_letters (e : BooleanExpression) (h : lettersValid e = true)
    (i : Fin CHARACTERS_COUNT) :
    e.vars i = true ↔ letter i.val ∈ letters e := by
  induction e with
  | Variable c =>
    have hc : isValidCharacter c = true := h
    simp only [BooleanExpression.vars, hc, dite_true, letters, List.mem_singleton]
    constructor
    · intro hi
      by_cases hic : i = charIndex c hc
      · rw [hic, letter_charIndex]
      · rw [Function.update_noteq hic] at hi
        exact absurd hi (by simp [initialVariables])
    · intro hi
      have hic : i = charIndex c hc := by
        subst hi
        exact (charIndex_letter i _).symm
      rw [hic]
      simp
  | UnaryExpression _ expression ih =>
    exact ih h
  | BinaryExpression _ left right ihl ihr =>
    simp only [lettersValid, Bool.and_eq_true] at h
    simp only [BooleanExpression.vars, Bool.or_eq_true, letters, List.mem_append,
      ihl h.1, ihr h.2]

theorem countLoop_eq (vars : Fin CHARACTERS_COUNT → Bool) (l : List (Fin CHARACTERS_COUNT)) :
    ∀ c : Nat, countLoop vars l c = c + List.countP vars l := by
  induction l with
  | nil => intro c; simp [countLoop]
  | cons i rest ih =>
    intro c
    simp only [countLoop]
    split_ifs with hv
    · rw [ih, List.countP_cons_of_pos _ _ hv]
      omega
    · rw [ih, List.countP_cons_of_neg _ _ hv]

theorem activeCount_eq_dedup_length (e : BooleanExpression) (h : lettersValid e = true) :
    activeCount e.vars = (letters e).dedup.length := by
  have hnodup : (((List.finRange CHARACTERS_COUNT).filter (fun j => e.vars j)).map
      (fun i : Fin CHARACTERS_COUNT => letter i.val)).Nodup :=
    List.Nodup.map (fun i j hij => letter_injective i j hij)
      (List.Nodup.filter _ (List.nodup_finRange _))
  have hperm := (List.perm_ext_iff_of_nodup hnodup (List.nodup_dedup (letters e))).mpr (by
    intro ch
    simp only [List.mem_map, List.mem_filter, List.mem_dedup]
    constructor
    · rintro ⟨i, ⟨_, hi⟩, rfl⟩
      exact (vars_iff_mem_letters e h i).mp hi
    · intro hch
      have hv := letters_valid_of_lettersValid e h ch hch
      refine ⟨charIndex ch hv, ⟨List.mem_finRange _, ?_⟩, letter_charIndex ch hv⟩
      rw [vars_iff_mem_letters e h, letter_charIndex]
      exact hch)
  have hlen := hperm.length_eq
  rw [List.length_map] at hlen
  exact hlen

theorem activeCount_le (vars : Fin CHARACTERS_COUNT → Bool) :
    activeCount vars ≤ CHARACTERS_COUNT := by
  have h := List.length_filter_le (fun j => vars j) (List.finRange CHARACTERS_COUNT)
  rw [List.length_finRange] at h
  exact h

theorem variablesCount_eq_activeCount (e : BooleanExpression) (h : lettersValid e = true) :
    e.variablesCount = activeCount e.vars := by
  induction e with
  | Variable c =>
    rw [activeCount_eq_dedup_length _ h]
    simp [BooleanExpression.variablesCount, letters]
  | UnaryExpression _ expression ih =>
    exact ih h
  | BinaryExpression operand left right _ _ =>
    simp only [BooleanExpression.variablesCount, countLoop_eq, initialVariablesCount,
      Nat.zero_add, activeCount_eq_countP]

/-- The count is at most 26 for every tree, so `1 << variablesCount` does not
leave the range of `int`. -/
theorem variablesCount_le (e : BooleanExpression) : e.variablesCount ≤ CHARACTERS_COUNT := by
  induction e with
  | Variable c => simp [BooleanExpression.variablesCount]
  | UnaryExpression _ expression ih => exact ih
  | BinaryExpression operand left right _ _ =>
    simp only [BooleanExpression.variablesCount, countLoop_eq, initialVariablesCount,
      Nat.zero_add, ← activeCount_eq_countP]
    exact activeCount_le _

theorem dedup_length_pos (e : BooleanExpression) : 1 ≤ (letters e).dedup.length := by
  have hne : letters e ≠ [] := by
    induction e with
    | Variable c => simp [letters]
    | UnaryExpression _ expression ih => exact ih
    | BinaryExpression _ left right ihl _ => simp [letters, ihl]
  have h2 : (letters e).dedup ≠ [] := by
    intro h0
    obtain ⟨c, hc⟩ := List.exists_mem_of_ne_nil _ hne
    have := List.mem_dedup.mpr hc
    rw [h0] at this
    exact absurd this (List.not_mem_nil _)
  exact List.length_pos.mpr h2

/-! ## Evaluation of well-formed trees -/

theorem evaluate_eq_value (e : BooleanExpression) (h : lettersValid e = true)
    (interpretation : BooleanInterpretation) :
    e.evaluate interpretation = .ok (value e interpretation) := by
  have hex : ∃ b, e.evaluate interpretation = .ok b := by
    induction e with
    | Variable c => exact ⟨_, getValue_of_valid _ _ h⟩
    | UnaryExpression operand expression ih =>
      obtain ⟨b, hb⟩ := ih h
      rw [evaluate_unary, hb]
      by_cases hop : operand = '!'
      · exact ⟨!b, by simp [hop, Except.map]⟩
      · exact ⟨false, by simp [hop]⟩
    | BinaryExpression operand left right ihl ihr =>
      simp only [lettersValid, Bool.and_eq_true] at h
      obtain ⟨l, hl⟩ := ihl h.1
      obtain ⟨r, hr⟩ := ihr h.2
      exact ⟨_, evaluate_binary operand left right interpretation l r hl hr⟩
  obtain ⟨b, hb⟩ := hex
  simp [value, hb]

/-- Two interpretations that agree on the occurrence set of a tree give the
same evaluation. -/
theorem evaluate_congr (e : BooleanExpression) (h : lettersValid e = true)
    (I J : BooleanInterpretation) (hIJ : ∀ i, e.vars i = true → I.vars i = J.vars i) :
    e.evaluate I = e.evaluate J := by
  induction e with
  | Variable c =>
    have hc : isValidCharacter c = true := h
    simp only [BooleanExpression.evaluate, getValue_of_valid _ _ hc]
    congr 1
    apply hIJ
    simp [BooleanExpression.vars, hc]
  | UnaryExpression operand expression ih =>
    have := ih h hIJ
    simp only [BooleanExpression.evaluate, this]
  | BinaryExpression operand left right ihl ihr =>
    simp only [lettersValid, Bool.and_eq_true] at h
    have hl := ihl h.1 (fun i hi => hIJ i (by simp [BooleanExpression.vars, hi]))
    have hr := ihr h.2 (fun i hi => hIJ i (by simp [BooleanExpression.vars, hi]))
    simp only [BooleanExpression.evaluate, hl, hr]

/-! ## The checker -/

theorem checkAllVariationsLoop_eq (e : BooleanExpression) (h : lettersValid e = true)
    (expectedValue : Bool) (l : List Nat) :
    checkAllVariationsLoop e expectedValue l =
      .ok (l.all (fun i => value e
        { vars := fillLoop e.vars (List.finRange CHARACTERS_COUNT) i (fun _ => false) }
          == expectedValue)) := by
  induction l with
  | nil => rfl
  | cons i rest ih =>
    simp only [checkAllVariationsLoop, createFromNumber_eq, evaluate_eq_value e h, ih,
      List.all_cons]
    cases hv : (value e
        { vars := fillLoop e.vars (List.finRange CHARACTERS_COUNT) i (fun _ => false) }
          == expectedValue)
    · have hne : (value e
          { vars := fillLoop e.vars (List.finRange CHARACTERS_COUNT) i (fun _ => false) }
            != expectedValue) = true := by
        simp only [bne, hv, Bool.not_false]
      simp [hne]
    · have hne : (value e
          { vars := fillLoop e.vars (List.finRange CHARACTERS_COUNT) i (fun _ => false) }
            != expectedValue) = false := by
        simp only [bne, hv, Bool.not_true]
      simp [hne]

theorem variationsCount_eq (e : BooleanExpression) (h : lettersValid e = true) :
    variationsCount e = 2 ^ activeCount e.vars := by
  rw [variationsCount, Nat.one_shiftLeft, variablesCount_eq_activeCount e h]

/-- The checker returns a verdict on every well-formed tree. -/
theorem checkAllVariations_returns (e : BooleanExpression) (h : lettersValid e = true)
    (expectedValue : Bool) :
    ∃ b, checkAllVariations (some e) expectedValue = .ok b :=
  ⟨_, checkAllVariationsLoop_eq e h expectedValue _⟩

/-- The verdict is `true` exactly when each of the enumerated interpretations
gives the expected value. -/
theorem checkAllVariations_iff_enumerated (e : BooleanExpression) (h : lettersValid e = true)
    (expectedValue : Bool) :
    checkAllVariations (some e) expectedValue = .ok true ↔
      ∀ i, i < 2 ^ activeCount e.vars →
        ∃ r, createFromNumber i e.vars = .ok r ∧ e.evaluate r = .ok expectedValue := by
  simp only [checkAllVariations, checkAllVariationsLoop_eq e h, variationsCount_eq e h,
    createFromNumber_eq, evaluate_eq_value e h]
  simp

/-- The verdict is `true` exactly when every interpretation of the 26 letters
gives the expected value. -/
theorem checkAllVariations_iff_all (e : BooleanExpression) (h : lettersValid e = true)
    (expectedValue : Bool) :
    checkAllVariations (some e) expectedValue = .ok true ↔
      ∀ I : BooleanInterpretation, e.evaluate I = .ok expectedValue := by
  rw [checkAllVariations_iff_enumerated e h]
  constructor
  · intro hall I
    obtain ⟨n, hn, hcreate⟩ := createFromNumber_onto e.vars
      { vars := fun i => e.vars i && I.vars i } (by intro i hi; simp [hi])
    obtain ⟨r, hr, hev⟩ := hall n hn
    rw [hcreate] at hr
    injection hr with hr
    subst hr
    rw [← hev]
    apply evaluate_congr e h
    intro i hi
    simp [hi]
  · intro hall i _
    exact ⟨_, createFromNumber_eq i e.vars, hall _⟩

/-- C1: for a tree whose letters are all in `A..Z`, `isTautology` returns a
verdict, and the verdict is `true` if and only if `evaluate` returns `true`
under every interpretation of the 26 letters. -/
theorem isTautology_iff_all (e : BooleanExpression) (h : lettersValid e = true) :
    (∃ b, (ExpressionCalculator.mk (some e)).isTautology = .ok b) ∧
    ((ExpressionCalculator.mk (some e)).isTautology = .ok true ↔
      ∀ I : BooleanInterpretation, e.evaluate I = .ok true) :=
  ⟨checkAllVariations_returns e h true, checkAllVariations_iff_all e h true⟩

/-- Witness of C1 at the tree `(A v (!A))`. -/
theorem isTautology_iff_all_witness :
    lettersValid exampleTautology = true ∧
    ((ExpressionCalculator.mk (some exampleTautology)).isTautology = .ok true ↔
      ∀ I : BooleanInterpretation, exampleTautology.evaluate I = .ok true) :=
  ⟨by decide, (isTautology_iff_all exampleTautology (by decide)).2⟩

/-- C2: for a tree whose letters are all in `A..Z`, `isContradiction` returns
a verdict, and the verdict is `true` if and only if `evaluate` returns `false`
under every interpretation of the 26 letters. -/
theorem isContradiction_iff_all (e : BooleanExpression) (h : lettersValid e = true) :
    (∃ b, (ExpressionCalculator.mk (some e)).isContradiction = .ok b) ∧
    ((ExpressionCalculator.mk (some e)).isContradiction = .ok true ↔
      ∀ I : BooleanInterpretation, e.evaluate I = .ok false) :=
  ⟨checkAllVariations_returns e h false, checkAllVariations_iff_all e h false⟩

/-- Witness of C2 at the tree `(A ^ (!A))`. -/
theorem isContradiction_iff_all_witness :
    lettersValid exampleContradiction = true ∧
    ((ExpressionCalculator.mk (some exampleContradiction)).isContradiction = .ok true ↔
      ∀ I : BooleanInterpretation, exampleContradiction.evaluate I = .ok false) :=
  ⟨by decide, (isContradiction_iff_all exampleContradiction (by decide)).2⟩

/-- C8: for a tree whose letters are all in `A..Z`, the occurrence set
`variables` marks exactly the letters that appear in the subtree, the
occurrence count `variablesCount` is the number of distinct letters of the
subtree (between 1 and 26), the loop bound of the checker is 2 to that number,
and the checker answers `true` exactly when all of these
`2 ^ (number of distinct letters)` enumerated assignments give the expected
value. -/
theorem occurrence_set_and_count (e : BooleanExpression) (h : lettersValid e = true) :
    (∀ i : Fin CHARACTERS_COUNT, e.vars i = true ↔ letter i.val ∈ letters e) ∧
    (∀ ch, ch ∈ letters e → ∃ hv : isValidCharacter ch = true, e.vars (charIndex ch hv) = true) ∧
    e.variablesCount = (letters e).dedup.length ∧
    1 ≤ e.variablesCount ∧ e.variablesCount ≤ 26 ∧
    variationsCount e = 2 ^ (letters e).dedup.length ∧
    (∀ expectedValue, checkAllVariations (some e) expectedValue = .ok true ↔
      ∀ i, i < 2 ^ (letters e).dedup.length →
        ∃ r, createFromNumber i e.vars = .ok r ∧ e.evaluate r = .ok expectedValue) := by
  have hcount : e.variablesCount = (letters e).dedup.length := by
    rw [variablesCount_eq_activeCount e h, activeCount_eq_dedup_length e h]
  refine ⟨vars_iff_mem_letters e h, ?_, hcount, ?_, variablesCount_le e, ?_, ?_⟩
  · intro ch hch
    have hv := letters_valid_of_lettersValid e h ch hch
    refine ⟨hv, ?_⟩
    rw [vars_iff_mem_letters e h, letter_charIndex]
    exact hch
  · rw [hcount]
    exact dedup_length_pos e
  · rw [variationsCount_eq e h, activeCount_eq_dedup_length e h]
  · intro expectedValue
    rw [checkAllVariations_iff_enumerated e h, activeCount_eq_dedup_length e h]

/-- Witness of C8 at the tree `(A ^ (!A))`, whose two occurrences of `A` count
once. -/
theorem occurrence_set_and_count_witness :
    lettersValid exampleContradiction = true ∧
    exampleContradiction.variablesCount = 1 ∧ variationsCount exampleContradiction = 2 :=
  have h := occurrence_set_and_count exampleContradiction (by decide)
  ⟨by decide, h.2.2.1.trans (by decide), h.2.2.2.2.2.1.trans (by decide)⟩

/-! ## The parser -/

theorem parseExpression_nil : parseExpression [] = .ok none := by
  rw [parseExpression]
  rfl

theorem parseExpression_single_eq (c : Char) : parseExpression [c] = newVariable c := by
  rw [parseExpression]
  rfl

theorem parseExpression_single (c : Char) (hc : isValidCharacter c = true) :
    parseExpression [c] = .ok (some (.Variable c)) := by
  rw [parseExpression_single_eq, newVariable, if_pos hc]

theorem parseExpression_single_invalid (c : Char) (hc : isValidCharacter c = false) :
    parseExpression [c] = .error .outOfBoundsWrite := by
  rw [parseExpression_single_eq, newVariable, if_neg (by simp [hc])]

/-- The body of `parseExpression` on a string of length at least 2, once the
scanning loop has stopped at position `i` on the character `c`. -/
theorem parseExpression_of_scan (s : List Char) (hs : 2 ≤ s.length) (i : Nat) (c : Char)
    (hscan : scanLoop (substr s 1 (s.length - 2)) 0 0 = some (i, c)) :
    parseExpression s =
      if c = NEG then
        match parseExpression (substr (substr s 1 (s.length - 2)) (i + 1)
            ((substr s 1 (s.length - 2)).length - i - 1)) with
        | .error e => .error e
        | .ok expression => newUnaryExpression NEG expression
      else
        match parseExpression (substr (substr s 1 (s.length - 2)) 0 i) with
        | .error e => .error e
        | .ok left =>
          match parseExpression (substr (substr s 1 (s.length - 2)) (i + 1)
              ((substr s 1 (s.length - 2)).length - i - 1)) with
          | .error e => .error e
          | .ok right => newBinaryExpression c left right := by
  have h0 : ¬ s.length = 0 := by omega
  have h1 : ¬ s.length = 1 := by omega
  rw [parseExpression]
  simp only [h0, h1, dite_false, hscan]

/-- The body of `parseExpression` on a string of length at least 2 when the
scanning loop runs to its end. -/
theorem parseExpression_of_scan_none (s : List Char) (hs : 2 ≤ s.length)
    (hscan : scanLoop (substr s 1 (s.length - 2)) 0 0 = none) :
    parseExpression s = .ok none := by
  have h0 : ¬ s.length = 0 := by omega
  have h1 : ¬ s.length = 1 := by omega
  rw [parseExpression]
  simp only [h0, h1, dite_false, hscan]

theorem isOperator_ne_bracket (c : Char) (h : isOperator c = true) : c ≠ '(' ∧ c ≠ ')' := by
  constructor
  · intro hc
    subst hc
    exact absurd h (by decide)
  · intro hc
    subst hc
    exact absurd h (by decide)

/-- The scanning loop with the counter at zero stops at the first operator
character when no bracket and no operator comes before it. -/
theorem scanLoop_stops (t : List Char) :
    ∀ (j i : Nat) (c : Char), t[i]? = some c → isOperator c = true →
      (∀ k, k < i → ∀ d, t[k]? = some d → d ≠ '(' ∧ d ≠ ')' ∧ isOperator d = false) →
      scanLoop t j 0 = some (j + i, c) := by
  induction t with
  | nil => intro j i c hc; simp at hc
  | cons d rest ih =>
    intro j i c hc hop hbefore
    cases i with
    | zero =>
      simp only [List.getElem?_cons_zero, Option.some.injEq] at hc
      subst hc
      have hb := isOperator_ne_bracket d hop
      simp [scanLoop, hb.1, hb.2, hop]
    | succ i =>
      have hd := hbefore 0 (Nat.succ_pos i) d List.getElem?_cons_zero
      have hrest := ih (j + 1) i c (by simpa using hc) hop
        (fun k hk d2 hd2 => hbefore (k + 1) (Nat.succ_lt_succ hk) d2 (by simpa using hd2))
      simp only [scanLoop, hd.1, hd.2.1, hd.2.2, if_false, Bool.false_and]
      rw [hrest]
      have hji : j + 1 + i = j + (i + 1) := by omega
      rw [hji]
      simp

theorem topOperatorAt_iff (t : List Char) (k : Nat) :
    topOperatorAt t k = true ↔
      ∃ c, t[k]? = some c ∧ isOperator c = true ∧
        ∀ m, m < k → ∀ d, t[m]? = some d → d ≠ '(' ∧ d ≠ ')' := by
  unfold topOperatorAt
  cases hk : t[k]? with
  | none => simp
  | some c =>
    simp only [Bool.and_eq_true, List.all_eq_true, Option.some.injEq, exists_eq_left',
      bne_iff_ne, ne_eq]
    constructor
    · rintro ⟨hop, hall⟩
      refine ⟨hop, ?_⟩
      intro m hm d hd
      apply hall d
      rw [List.mem_iff_getElem?]
      refine ⟨m, ?_⟩
      rw [List.getElem?_take_of_lt hm]
      exact hd
    · rintro ⟨hop, hall⟩
      refine ⟨hop, ?_⟩
      intro d hd
      rw [List.mem_iff_getElem?] at hd
      obtain ⟨m, hm⟩ := hd
      have hmk : m < k := by
        by_contra hge
        have hlen : (t.take k).length ≤ m := by
          rw [List.length_take]
          omega
        rw [List.getElem?_eq_none hlen] at hm
        exact absurd hm (by simp)
      rw [List.getElem?_take_of_lt hmk] at hm
      exact hall m hmk d hm

/-- At the first top-level operator position the scanning loop stops. -/
theorem scanLoop_of_firstTopOperator (t : List Char) (i : Nat) (c : Char)
    (hfirst : firstTopOperator t i = true) (hc : t[i]? = some c) :
    scanLoop t 0 0 = some (i, c) := by
  simp only [firstTopOperator, Bool.and_eq_true, List.all_eq_true, List.mem_range,
    Bool.not_eq_true'] at hfirst
  obtain ⟨htop, hearlier⟩ := hfirst
  obtain ⟨c2, hc2, hop, hbr⟩ := (topOperatorAt_iff t i).mp htop
  rw [hc] at hc2
  injection hc2 with hc2
  subst hc2
  have h := scanLoop_stops t 0 i c hc hop (by
    intro k hk d hd
    refine ⟨(hbr k hk d hd).1, (hbr k hk d hd).2, ?_⟩
    by_contra hopd
    have hopd2 : isOperator d = true := by simpa using hopd
    have : topOperatorAt t k = true :=
      (topOperatorAt_iff t k).mpr ⟨d, hd, hopd2, fun m hm d2 hd2 => hbr m (by omega) d2 hd2⟩
    rw [hearlier k hk] at this
    exact absurd this (by decide))
  rw [Nat.zero_add] at h
  exact h

/-- C9, the code at the failing input: `parseExpression` returns no node for
the empty string and the `Variable` node for a one-character string whose
character is in `A..Z`; for any other character, such as `'i'`, the
constructor `Variable` writes `variables[ch - 'A']` outside the 26-entry array
(index 40 for `'i'`) and the call does not return the node holding that
character. -/
theorem parseExpression_short_outcomes :
    parseExpression [] = .ok none ∧
    (∀ c : Char, isValidCharacter c = true →
      parseExpression [c] = .ok (some (.Variable c))) ∧
    (∀ c : Char, isValidCharacter c = false →
      parseExpression [c] = .error .outOfBoundsWrite) ∧
    'i'.toNat - 'A'.toNat = 40 ∧
    parseExpression "i".toList = .error .outOfBoundsWrite ∧
    parseExpression "i".toList ≠ .ok (some (.Variable 'i')) := by
  have hi : parseExpression "i".toList = .error .outOfBoundsWrite :=
    parseExpression_single_invalid 'i' (by decide)
  refine ⟨parseExpression_nil, parseExpression_single, parseExpression_single_invalid,
    by decide, hi, ?_⟩
  rw [hi]
  exact fun h => nomatch h

/-- C10: for a string `s` of length at least 2 with interior `t`, if `i` is the
first position of `t` that holds an operator character with no bracket before
it, `t[i] = c` is one of `'^'`, `'v'`, `'>'`, `'='`, `'+'`, and the parses of
`t[0..i)` and of `t[i+1..]` yield the nodes `left` and `right`, then
`parseExpression s` is the Binary node with operator `c` and these children. -/
theorem parseExpression_binary (s : List Char) (hs : 2 ≤ s.length) (i : Nat) (c : Char)
    (left right : BooleanExpression)
    (hfirst : firstTopOperator (substr s 1 (s.length - 2)) i = true)
    (hc : (substr s 1 (s.length - 2))[i]? = some c)
    (hbin : c = '^' ∨ c = 'v' ∨ c = '>' ∨ c = '=' ∨ c = '+')
    (hleft : parseExpression (substr (substr s 1 (s.length - 2)) 0 i) = .ok (some left))
    (hright : parseExpression (substr (substr s 1 (s.length - 2)) (i + 1)
      ((substr s 1 (s.length - 2)).length - i - 1)) = .ok (some right)) :
    parseExpression s = .ok (some (.BinaryExpression c left right)) := by
  have hscan := scanLoop_of_firstTopOperator _ i c hfirst hc
  have hneg : c ≠ NEG := by
    rcases hbin with h | h | h | h | h <;> subst h <;> decide
  rw [parseExpression_of_scan s hs i c hscan, if_neg hneg, hleft, hright]
  rfl

/-- Witness of C10 at the string `(Av(!A))`. -/
theorem parseExpression_binary_witness :
    parseExpression "(Av(!A))".toList = .ok (some exampleTautology) :=
  parseExpression_binary "(Av(!A))".toList (by decide) 1 'v' (.Variable 'A')
    (.UnaryExpression '!' (.Variable 'A')) (by decide) (by decide) (by decide)
    (parseExpression_single 'A' (by decide))
    (by
      have h : scanLoop (substr "(!A)".toList 1 ("(!A)".toList.length - 2)) 0 0 =
          some (0, '!') := by decide
      have h2 := parseExpression_of_scan "(!A)".toList (by decide) 0 '!' h
      rw [if_pos (by decide)] at h2
      have h3 : substr (substr "(!A)".toList 1 ("(!A)".toList.length - 2)) (0 + 1)
          ((substr "(!A)".toList 1 ("(!A)".toList.length - 2)).length - 0 - 1) = ['A'] := by
        decide
      rw [h3, parseExpression_single 'A' (by decide)] at h2
      have h4 : substr (substr "(Av(!A))".toList 1 ("(Av(!A))".toList.length - 2)) (1 + 1)
          ((substr "(Av(!A))".toList 1 ("(Av(!A))".toList.length - 2)).length - 1 - 1) =
            "(!A)".toList := by
        decide
      rw [h4, h2]
      rfl)

/-! ## Termination of the parser -/

theorem substr_interior_length (s : List Char) (hs : 2 ≤ s.length) :
    (substr s 1 (s.length - 2)).length = s.length - 2 := by
  simp only [substr, List.length_take, List.length_drop]
  omega

theorem scanLoop_index_lt (t : List Char) :
    ∀ (j b i : Nat) (c : Char), scanLoop t j b = some (i, c) → j ≤ i ∧ i < j + t.length := by
  induction t with
  | nil => intro j b i c h; simp [scanLoop] at h
  | cons d rest ih =>
    intro j b i c h
    simp only [scanLoop] at h
    simp only [List.length_cons]
    split_ifs at h with h1 h2 h3
    · have := ih _ _ _ _ h
      omega
    · have := ih _ _ _ _ h
      omega
    · simp only [Option.some.injEq, Prod.mk.injEq] at h
      omega
    · have := ih _ _ _ _ h
      omega

/-- The lengths of the arguments of the recursive calls, for a string of
length `n ≥ 2` on which the scanning loop stops at position `i`. -/
theorem operand_lengths (s : List Char) (hs : 2 ≤ s.length) (i : Nat) (c : Char)
    (hscan : scanLoop (substr s 1 (s.length - 2)) 0 0 = some (i, c)) :
    i < s.length - 2 ∧
    (substr (substr s 1 (s.length - 2)) 0 i).length = i ∧
    (substr (substr s 1 (s.length - 2)) (i + 1)
      ((substr s 1 (s.length - 2)).length - i - 1)).length = s.length - 2 - i - 1 := by
  have hlen := substr_interior_length s hs
  have hi := (scanLoop_index_lt _ 0 0 i c hscan).2
  rw [Nat.zero_add, hlen] at hi
  refine ⟨hi, ?_, ?_⟩
  · simp only [substr, List.length_take, List.length_drop, List.drop_zero] at hlen ⊢
    omega
  · rw [hlen]
    generalize substr s 1 (s.length - 2) = t at hlen
    simp only [substr, List.length_take, List.length_drop]
    omega

/-- With a depth bound above the length of the string, the bounded recursion
returns, and returns the outcome of `parseExpression`. -/
theorem parseExpressionFuel_eq :
    ∀ (fuel : Nat) (s : List Char), s.length < fuel →
      parseExpressionFuel fuel s = some (parseExpression s) := by
  intro fuel
  induction fuel with
  | zero => intro s h; omega
  | succ fuel ih =>
    intro s h
    by_cases h0 : s.length = 0
    · rw [parseExpressionFuel, parseExpression]
      simp only [h0, dite_true]
    by_cases h1 : s.length = 1
    · rw [parseExpressionFuel, parseExpression]
      simp [h1]
    have hs : 2 ≤ s.length := by omega
    cases hscan : scanLoop (substr s 1 (s.length - 2)) 0 0 with
    | none =>
      rw [parseExpression_of_scan_none s hs hscan, parseExpressionFuel]
      simp only [h0, h1, dite_false, hscan]
    | some p =>
      obtain ⟨i, c⟩ := p
      have hlens := operand_lengths s hs i c hscan
      have hl : (substr (substr s 1 (s.length - 2)) 0 i).length < fuel := by omega
      have hr : (substr (substr s 1 (s.length - 2)) (i + 1)
          ((substr s 1 (s.length - 2)).length - i - 1)).length < fuel := by omega
      rw [parseExpression_of_scan s hs i c hscan, parseExpressionFuel]
      simp only [h0, h1, dite_false, hscan, ih _ hl, ih _ hr]
      by_cases hc : c = NEG
      · simp only [hc, if_true]
        cases parseExpression (substr (substr s 1 (s.length - 2)) (i + 1)
          ((substr s 1 (s.length - 2)).length - i - 1)) <;> rfl
      · simp only [hc, if_false]
        cases parseExpression (substr (substr s 1 (s.length - 2)) 0 i) with
        | error e => rfl
        | ok left =>
          cases parseExpression (substr (substr s 1 (s.length - 2)) (i + 1)
            ((substr s 1 (s.length - 2)).length - i - 1)) <;> rfl

/-- Evaluation of `parseExpression` on a given string through the bounded
recursion. -/
theorem parseExpression_of_fuel (fuel : Nat) (s : List Char)
    (r : Except ExprError (Option BooleanExpression)) (hlen : s.length < fuel)
    (h : parseExpressionFuel fuel s = some r) : parseExpression s = r := by
  rw [parseExpressionFuel_eq fuel s hlen] at h
  injection h

/-! ## Unary nodes and strings without a top-level operator -/

theorem scanLoop_counter_pos (t : List Char) :
    ∀ (j b : Nat), 0 < b → scanLoop t j b = none := by
  induction t with
  | nil => intro j b _; rfl
  | cons d rest ih =>
    intro j b hb
    have hb0 : (b == 0) = false := by
      rw [beq_eq_false_iff_ne]
      omega
    simp only [scanLoop, hb0, Bool.and_false, Bool.false_eq_true, if_false]
    split_ifs
    · exact ih _ _ (Nat.succ_pos b)
    · exact ih _ _ (Nat.succ_pos b)
    · exact ih _ _ hb

theorem scanLoop_none_of_bracket_before (t : List Char) :
    ∀ j : Nat,
      (∀ (k : Nat) (c : Char), t[k]? = some c → isOperator c = true →
        ∃ m : Nat, m < k ∧ (t[m]? = some '(' ∨ t[m]? = some ')')) →
      scanLoop t j 0 = none := by
  induction t with
  | nil => intro j _; rfl
  | cons d rest ih =>
    intro j h
    simp only [scanLoop]
    split_ifs with h1 h2 h3
    · exact scanLoop_counter_pos _ _ _ (Nat.succ_pos 0)
    · exact scanLoop_counter_pos _ _ _ (Nat.succ_pos 0)
    · simp only [Bool.and_eq_true] at h3
      obtain ⟨m, hm, _⟩ := h 0 d List.getElem?_cons_zero h3.1
      omega
    · apply ih
      intro k c hk hop
      obtain ⟨m, hm, hbr⟩ := h (k + 1) c (by simpa using hk) hop
      cases m with
      | zero =>
        simp only [List.getElem?_cons_zero, Option.some.injEq] at hbr
        cases hbr with
        | inl hb => exact absurd hb h1
        | inr hb => exact absurd hb h2
      | succ m =>
        refine ⟨m, by omega, ?_⟩
        simpa using hbr

theorem scanLoop_none_of_no_top (t : List Char)
    (h : ∀ k, k < t.length → topOperatorAt t k = false) : scanLoop t 0 0 = none := by
  apply scanLoop_none_of_bracket_before
  intro k c hk hop
  by_contra hno
  have hklt : k < t.length := by
    by_contra hge
    rw [List.getElem?_eq_none (by omega)] at hk
    exact absurd hk (by simp)
  have htop : topOperatorAt t k = true := by
    rw [topOperatorAt_iff]
    refine ⟨c, hk, hop, ?_⟩
    intro m hm d hd
    constructor
    · intro hd1
      exact hno ⟨m, hm, Or.inl (hd1 ▸ hd)⟩
    · intro hd1
      exact hno ⟨m, hm, Or.inr (hd1 ▸ hd)⟩
  rw [h k hklt] at htop
  exact absurd htop (by decide)

theorem topOperatorAt_false_of_no_operator (t : List Char)
    (h : ∀ c, c ∈ t → isOperator c = false) (k : Nat) : topOperatorAt t k = false := by
  unfold topOperatorAt
  cases hk : t[k]? with
  | none => rfl
  | some c =>
    have hc : c ∈ t := List.mem_iff_getElem?.mpr ⟨k, hk⟩
    simp [h c hc]

theorem parseExpression_of_first_neg (s : List Char) (hs : 2 ≤ s.length) (i : Nat)
    (child : BooleanExpression)
    (hfirst : firstTopOperator (substr s 1 (s.length - 2)) i = true)
    (hc : (substr s 1 (s.length - 2))[i]? = some '!')
    (hchild : parseExpression (substr (substr s 1 (s.length - 2)) (i + 1)
      ((substr s 1 (s.length - 2)).length - i - 1)) = .ok (some child)) :
    parseExpression s = .ok (some (.UnaryExpression '!' child)) := by
  have hscan := scanLoop_of_firstTopOperator _ i '!' hfirst hc
  rw [parseExpression_of_scan s hs i '!' hscan, if_pos (by decide), hchild]
  rfl

/-- C11: for a string `s` of length at least 2 with interior `t`, if the first
position of `t` that holds an operator character with no bracket before it is
`i` and holds `'!'`, and the parse of `t[i+1..]` yields the node `child`, then
`parseExpression s` is the Unary node with operator `'!'` and child `child`;
nothing is asked of the characters before position `i`. -/
theorem parseExpression_unary (s : List Char) (hs : 2 ≤ s.length) (i : Nat)
    (child : BooleanExpression)
    (hfirst : firstTopOperator (substr s 1 (s.length - 2)) i = true)
    (hc : (substr s 1 (s.length - 2))[i]? = some '!')
    (hchild : parseExpression (substr (substr s 1 (s.length - 2)) (i + 1)
      ((substr s 1 (s.length - 2)).length - i - 1)) = .ok (some child)) :
    parseExpression s = .ok (some (.UnaryExpression '!' child)) :=
  parseExpression_of_first_neg s hs i child hfirst hc hchild

/-- Witness of C11 at the string `(A!B)`: the `A` before the `'!'` is
ignored. -/
theorem parseExpression_unary_witness :
    parseExpression "(A!B)".toList = .ok (some (.UnaryExpression '!' (.Variable 'B'))) :=
  parseExpression_unary "(A!B)".toList (by decide) 1 (.Variable 'B') (by decide) (by decide)
    (parseExpression_single 'B' (by decide))

/-- C12: for a string `s` of length at least 2 in whose interior `t` no
position holds an operator character that has no bracket before it,
`parseExpression s` returns no node and no error; so it is when `t` holds no
operator character at all, and for the string `((A^B)vC)`. -/
theorem parseExpression_no_top_operator (s : List Char) (hs : 2 ≤ s.length) :
    ((∀ k, k < (substr s 1 (s.length - 2)).length →
        topOperatorAt (substr s 1 (s.length - 2)) k = false) →
      parseExpression s = .ok none) ∧
    ((∀ c, c ∈ substr s 1 (s.length - 2) → isOperator c = false) →
      parseExpression s = .ok none) ∧
    parseExpression "((A^B)vC)".toList = .ok none := by
  refine ⟨?_, ?_, ?_⟩
  · intro h
    exact parseExpression_of_scan_none s hs (scanLoop_none_of_no_top _ h)
  · intro h
    exact parseExpression_of_scan_none s hs
      (scanLoop_none_of_no_top _ (fun k _ => topOperatorAt_false_of_no_operator _ h k))
  · exact parseExpression_of_scan_none _ (by decide) (by decide)

/-- Witness of C12 at the strings `(AB)`, without operator, and `((A>B)=C)`,
whose left operand is in brackets. -/
theorem parseExpression_no_top_operator_witness :
    parseExpression "(AB)".toList = .ok none ∧
    parseExpression "((A>B)=C)".toList = .ok none :=
  ⟨(parseExpression_no_top_operator "(AB)".toList (by decide)).2.1 (by decide),
   (parseExpression_no_top_operator "((A>B)=C)".toList (by decide)).1 (by decide)⟩

/-! ## The examples of the specification -/

theorem letter_not_special :
    ∀ i : Fin CHARACTERS_COUNT,
      letter i.val ≠ '(' ∧ letter i.val ≠ ')' ∧ isOperator (letter i.val) = false := by
  decide

theorem valid_not_special (ch : Char) (h : isValidCharacter ch = true) :
    ch ≠ '(' ∧ ch ≠ ')' ∧ isOperator ch = false := by
  have := letter_not_special (charIndex ch h)
  rw [letter_charIndex] at this
  exact this

theorem scanLoop_letter_operator (ch op : Char) (rest : List Char)
    (hch : isValidCharacter ch = true) (hop : isOperator op = true) :
    scanLoop (ch :: op :: rest) 0 0 = some (1, op) := by
  have h := scanLoop_stops (ch :: op :: rest) 0 1 op (by simp) hop (by
    intro k hk d hd
    have hk0 : k = 0 := by omega
    subst hk0
    simp only [List.getElem?_cons_zero, Option.some.injEq] at hd
    subst hd
    exact valid_not_special _ hch)
  exact h

theorem parseExpression_letter_operator_letter (X op : Char)
    (hX : isValidCharacter X = true) (hop : isOperator op = true) (hneg : op ≠ NEG) :
    parseExpression ['(', X, op, X, ')'] =
      .ok (some (.BinaryExpression op (.Variable X) (.Variable X))) := by
  have hscan : scanLoop (substr ['(', X, op, X, ')'] 1 (['(', X, op, X, ')'].length - 2)) 0 0 =
      some (1, op) := scanLoop_letter_operator X op [X] hX hop
  rw [parseExpression_of_scan _ (by simp) 1 op hscan, if_neg hneg]
  have hl : substr (substr ['(', X, op, X, ')'] 1 (['(', X, op, X, ')'].length - 2)) 0 1 =
      [X] := rfl
  have hr : substr (substr ['(', X, op, X, ')'] 1 (['(', X, op, X, ')'].length - 2)) (1 + 1)
      ((substr ['(', X, op, X, ')'] 1 (['(', X, op, X, ')'].length - 2)).length - 1 - 1) =
        [X] := rfl
  rw [hl, hr, parseExpression_single X hX]
  rfl

theorem evaluate_same_variable (X op : Char) (hX : isValidCharacter X = true)
    (I : BooleanInterpretation) :
    (BooleanExpression.BinaryExpression op (.Variable X) (.Variable X)).evaluate I =
      .ok (if op = 'v' then I.vars (charIndex X hX) || I.vars (charIndex X hX)
           else if op = '^' then I.vars (charIndex X hX) && I.vars (charIndex X hX)
           else if op = '>' then !I.vars (charIndex X hX) || I.vars (charIndex X hX)
           else if op = '=' then I.vars (charIndex X hX) == I.vars (charIndex X hX)
           else if op = '+' then I.vars (charIndex X hX) != I.vars (charIndex X hX)
           else false) :=
  evaluate_binary op (.Variable X) (.Variable X) I _ _
    (getValue_of_valid I X hX) (getValue_of_valid I X hX)

theorem fromString_of_parse (str : List Char) (e : Option BooleanExpression)
    (h : parseExpression str = .ok e) :
    ExpressionCalculator.fromString str = .ok { expression := e } := by
  simp only [ExpressionCalculator.fromString, h]

theorem fromString_error_of_parse (str : List Char) (err : ExprError)
    (h : parseExpression str = .error err) :
    ExpressionCalculator.fromString str = .error err := by
  simp only [ExpressionCalculator.fromString, h]

/-- The verdict is `false` as soon as one interpretation does not give the
expected value. -/
theorem checkAllVariations_false_of (e : BooleanExpression) (h : lettersValid e = true)
    (expectedValue : Bool) (I : BooleanInterpretation)
    (hI : e.evaluate I ≠ .ok expectedValue) :
    checkAllVariations (some e) expectedValue = .ok false := by
  obtain ⟨b, hb⟩ := checkAllVariations_returns e h expectedValue
  cases b with
  | false => exact hb
  | true => exact absurd ((checkAllVariations_iff_all e h expectedValue).mp hb I) hI

/-- C13, the claim as stated fails: the construction from `(A^!A)` does not
return a calculator; the operand `!A` parses to no node and the constructor of
the Binary node dereferences it. -/
theorem contradiction_string_counterexample :
    ExpressionCalculator.fromString "(A^!A)".toList = .error .nullDereference ∧
    ¬ ∃ calculator, ExpressionCalculator.fromString "(A^!A)".toList = .ok calculator ∧
        calculator.isContradiction = .ok true ∧ calculator.isTautology = .ok false := by
  have h : ExpressionCalculator.fromString "(A^!A)".toList = .error .nullDereference :=
    fromString_error_of_parse _ _ (parseExpression_of_fuel 7 _ _ (by decide) (by decide))
  refine ⟨h, ?_⟩
  rintro ⟨calculator, hcalc, _⟩
  rw [h] at hcalc
  exact absurd hcalc (by simp)

/-- C13 as amended: the calculator constructed from `(A^(!A))` holds the tree
`A ^ !A`, and for it `isContradiction` is true and `isTautology` is false. -/
theorem contradiction_string_amended :
    ExpressionCalculator.fromString "(A^(!A))".toList =
      .ok { expression := some exampleContradiction } ∧
    (ExpressionCalculator.mk (some exampleContradiction)).isContradiction = .ok true ∧
    (ExpressionCalculator.mk (some exampleContradiction)).isTautology = .ok false :=
  ⟨fromString_of_parse _ _ (parseExpression_of_fuel 9 _ _ (by decide) (by decide)),
   by decide, by decide⟩

/-- C14, the claim as stated fails: the construction from `(Av!A)` does not
return a calculator; the operand `!A` parses to no node and the constructor of
the Binary node dereferences it. -/
theorem tautology_string_counterexample :
    ExpressionCalculator.fromString "(Av!A)".toList = .error .nullDereference ∧
    ¬ ∃ calculator, ExpressionCalculator.fromString "(Av!A)".toList = .ok calculator ∧
        calculator.isTautology = .ok true ∧ calculator.isContradiction = .ok false := by
  have h : ExpressionCalculator.fromString "(Av!A)".toList = .error .nullDereference :=
    fromString_error_of_parse _ _ (parseExpression_of_fuel 7 _ _ (by decide) (by decide))
  refine ⟨h, ?_⟩
  rintro ⟨calculator, hcalc, _⟩
  rw [h] at hcalc
  exact absurd hcalc (by simp)

/-- C14 as amended: the calculator constructed from `(Av(!A))` holds the tree
`A v !A`, and for it `isTautology` is true and `isContradiction` is false. -/
theorem tautology_string_amended :
    ExpressionCalculator.fromString "(Av(!A))".toList =
      .ok { expression := some exampleTautology } ∧
    (ExpressionCalculator.mk (some exampleTautology)).isTautology = .ok true ∧
    (ExpressionCalculator.mk (some exampleTautology)).isContradiction = .ok false :=
  ⟨fromString_of_parse _ _ (parseExpression_of_fuel 9 _ _ (by decide) (by decide)),
   by decide, by decide⟩

/-- C15: for every letter `X` in `A..Z`, the calculators constructed from
`(X>X)` and from `(X=X)` exist and `isTautology` is true for them, and the
calculator constructed from `(X+X)` exists and `isContradiction` is true for
it. -/
theorem same_letter_examples (X : Char) (hX : isValidCharacter X = true) :
    (∃ calculator, ExpressionCalculator.fromString ['(', X, '>', X, ')'] = .ok calculator ∧
      calculator.isTautology = .ok true) ∧
    (∃ calculator, ExpressionCalculator.fromString ['(', X, '=', X, ')'] = .ok calculator ∧
      calculator.isTautology = .ok true) ∧
    (∃ calculator, ExpressionCalculator.fromString ['(', X, '+', X, ')'] = .ok calculator ∧
      calculator.isContradiction = .ok true) := by
  have hv : ∀ op, lettersValid (.BinaryExpression op (.Variable X) (.Variable X)) = true := by
    intro op
    simp [lettersValid, hX]
  refine ⟨⟨_, fromString_of_parse _ _
      (parseExpression_letter_operator_letter X '>' hX (by decide) (by decide)), ?_⟩,
    ⟨_, fromString_of_parse _ _
      (parseExpression_letter_operator_letter X '=' hX (by decide) (by decide)), ?_⟩,
    ⟨_, fromString_of_parse _ _
      (parseExpression_letter_operator_letter X '+' hX (by decide) (by decide)), ?_⟩⟩
  · apply (checkAllVariations_iff_all _ (hv '>') true).mpr
    intro I
    rw [evaluate_same_variable X '>' hX I]
    cases I.vars (charIndex X hX) <;> rfl
  · apply (checkAllVariations_iff_all _ (hv '=') true).mpr
    intro I
    rw [evaluate_same_variable X '=' hX I]
    cases I.vars (charIndex X hX) <;> rfl
  · apply (checkAllVariations_iff_all _ (hv '+') false).mpr
    intro I
    rw [evaluate_same_variable X '+' hX I]
    cases I.vars (charIndex X hX) <;> rfl

/-- Witness of C15 at the letter `A`, the instances of the specification. -/
theorem same_letter_examples_witness :
    (∃ calculator, ExpressionCalculator.fromString "(A>A)".toList = .ok calculator ∧
      calculator.isTautology = .ok true) ∧
    (∃ calculator, ExpressionCalculator.fromString "(A=A)".toList = .ok calculator ∧
      calculator.isTautology = .ok true) ∧
    (∃ calculator, ExpressionCalculator.fromString "(A+A)".toList = .ok calculator ∧
      calculator.isContradiction = .ok true) :=
  same_letter_examples 'A' (by decide)

/-- C16: for every letter `X` in `A..Z`, the string `X` parses to the
`Variable` node for `X`, the calculator constructed from it holds that node,
and for it `isTautology` is false and `isContradiction` is false. -/
theorem single_letter_examples (X : Char) (hX : isValidCharacter X = true) :
    parseExpression [X] = .ok (some (.Variable X)) ∧
    ExpressionCalculator.fromString [X] = .ok { expression := some (.Variable X) } ∧
    (ExpressionCalculator.mk (some (.Variable X))).isTautology = .ok false ∧
    (ExpressionCalculator.mk (some (.Variable X))).isContradiction = .ok false := by
  refine ⟨parseExpression_single X hX,
    fromString_of_parse _ _ (parseExpression_single X hX), ?_, ?_⟩
  · apply checkAllVariations_false_of (.Variable X) hX true { vars := fun _ => false }
    simp [BooleanExpression.evaluate, getValue_of_valid _ _ hX]
  · apply checkAllVariations_false_of (.Variable X) hX false { vars := fun _ => true }
    simp [BooleanExpression.evaluate, getValue_of_valid _ _ hX]

/-- Witness of C16 at the letter `Q`. -/
theorem single_letter_examples_witness :
    ExpressionCalculator.fromString "Q".toList = .ok { expression := some (.Variable 'Q') } ∧
    (ExpressionCalculator.mk (some (.Variable 'Q'))).isTautology = .ok false ∧
    (ExpressionCalculator.mk (some (.Variable 'Q'))).isContradiction = .ok false :=
  (single_letter_examples 'Q' (by decide)).2

/-- C17: `parseExpression` returns on every string: the recursion bounded in
depth by any number above the length of the string returns, with the outcome
of `parseExpression`; and for a string of length `n ≥ 2` the interior has
length `n - 2` and the operand substrings handed to the recursive calls have
length at most `n - 3`, so less than `n`. -/
theorem parseExpression_terminates (s : List Char) :
    (∀ fuel, s.length < fuel → parseExpressionFuel fuel s = some (parseExpression s)) ∧
    (2 ≤ s.length →
      (substr s 1 (s.length - 2)).length = s.length - 2 ∧
      ∀ i c, scanLoop (substr s 1 (s.length - 2)) 0 0 = some (i, c) →
        (substr (substr s 1 (s.length - 2)) 0 i).length ≤ s.length - 3 ∧
        (substr (substr s 1 (s.length - 2)) (i + 1)
          ((substr s 1 (s.length - 2)).length - i - 1)).length ≤ s.length - 3 ∧
        (substr (substr s 1 (s.length - 2)) 0 i).length < s.length ∧
        (substr (substr s 1 (s.length - 2)) (i + 1)
          ((substr s 1 (s.length - 2)).length - i - 1)).length < s.length) := by
  refine ⟨fun fuel h => parseExpressionFuel_eq fuel s h, ?_⟩
  intro hs
  refine ⟨substr_interior_length s hs, ?_⟩
  intro i c hscan
  have h := operand_lengths s hs i c hscan
  omega

/-- Witness of C17 at the string `(A^!A)`, which is not well formed: the
bounded recursion returns with depth bound 7, and the two operand substrings
have lengths 1 and 2, at most `6 - 3`. -/
theorem parseExpression_terminates_witness :
    parseExpressionFuel 7 "(A^!A)".toList = some (parseExpression "(A^!A)".toList) ∧
    (substr (substr "(A^!A)".toList 1 4) 0 1).length ≤ 3 ∧
    (substr (substr "(A^!A)".toList 1 4) 2 2).length ≤ 3 :=
  have h := parseExpression_terminates "(A^!A)".toList
  have h2 := (h.2 (by decide)).2 1 '^' (by decide)
  ⟨h.1 7 (by decide), h2.1, h2.2.1⟩

/-! ## Rendering and parsing -/

theorem substr_wrapped (body : List Char) (a b : Char) :
    substr (a :: (body ++ [b])) 1 ((a :: (body ++ [b])).length - 2) = body := by
  simp [substr]

theorem substr_tail (c : Char) (rest : List Char) :
    substr (c :: rest) (0 + 1) ((c :: rest).length - 0 - 1) = rest := by
  simp [substr]

theorem substr_tail_two (c d : Char) (rest : List Char) :
    substr (c :: d :: rest) (1 + 1) ((c :: d :: rest).length - 1 - 1) = rest := by
  simp [substr]

theorem scanLoop_neg_first (rest : List Char) :
    scanLoop ('!' :: rest) 0 0 = some (0, '!') := by
  have h := scanLoop_stops ('!' :: rest) 0 0 '!' (by simp) (by decide)
    (fun k hk => absurd hk (Nat.not_lt_zero k))
  exact h

theorem isOperator_of_isBinaryOperator (op : Char) (h : isBinaryOperator op = true) :
    isOperator op = true ∧ op ≠ NEG := by
  simp only [isBinaryOperator, Bool.or_eq_true, beq_iff_eq] at h
  rcases h with (((h | h) | h) | h) | h <;> subst h <;> decide

/-- Parsing the rendering of a tree in left-variable form returns the tree. -/
theorem parseExpression_render (e : BooleanExpression) (h : leftVariableForm e = true) :
    parseExpression (render e) = .ok (some e) := by
  induction e with
  | Variable ch => exact parseExpression_single ch h
  | UnaryExpression operand expression ih =>
    simp only [leftVariableForm, Bool.and_eq_true, beq_iff_eq] at h
    obtain ⟨hop, hexp⟩ := h
    subst hop
    have hlen : 2 ≤ (render (.UnaryExpression '!' expression)).length := by
      simp [render]
    have hint : substr (render (.UnaryExpression '!' expression)) 1
        ((render (.UnaryExpression '!' expression)).length - 2) = '!' :: render expression :=
      substr_wrapped ('!' :: render expression) '(' ')'
    have hscan : scanLoop (substr (render (.UnaryExpression '!' expression)) 1
        ((render (.UnaryExpression '!' expression)).length - 2)) 0 0 = some (0, '!') := by
      rw [hint]
      exact scanLoop_neg_first _
    rw [parseExpression_of_scan _ hlen 0 '!' hscan, if_pos (by decide), hint, substr_tail,
      ih hexp]
    rfl
  | BinaryExpression operand left right _ ihr =>
    cases left with
    | Variable ch =>
      simp only [leftVariableForm, Bool.and_eq_true] at h
      obtain ⟨⟨hop, hch⟩, hright⟩ := h
      obtain ⟨hisop, hneg⟩ := isOperator_of_isBinaryOperator operand hop
      have hlen : 2 ≤ (render (.BinaryExpression operand (.Variable ch) right)).length := by
        simp [render]
      have hint : substr (render (.BinaryExpression operand (.Variable ch) right)) 1
          ((render (.BinaryExpression operand (.Variable ch) right)).length - 2) =
            ch :: operand :: render right :=
        substr_wrapped (ch :: operand :: render right) '(' ')'
      have hscan : scanLoop (substr (render (.BinaryExpression operand (.Variable ch) right)) 1
          ((render (.BinaryExpression operand (.Variable ch) right)).length - 2)) 0 0 =
            some (1, operand) := by
        rw [hint]
        exact scanLoop_letter_operator ch operand _ hch hisop
      have hleft : substr (ch :: operand :: render right) 0 1 = [ch] := rfl
      rw [parseExpression_of_scan _ hlen 1 operand hscan, if_neg hneg, hint, substr_tail_two,
        hleft, parseExpression_single ch hch, ihr hright]
      rfl
    | UnaryExpression _ _ => simp [leftVariableForm] at h
    | BinaryExpression _ _ _ => simp [leftVariableForm] at h

/-- C18: for every tree whose `Variable` letters are in `A..Z`, whose Unary
nodes have the operator `'!'`, whose Binary nodes have an operator among
`'^'`, `'v'`, `'>'`, `'='`, `'+'` and a `Variable` as left operand,
`parseExpression` applied to the fully parenthesised rendering of the tree
returns exactly that tree. -/
theorem parseExpression_render_roundtrip (e : BooleanExpression)
    (h : leftVariableForm e = true) :
    parseExpression (render e) = .ok (some e) :=
  parseExpression_render e h

/-- Witness of C18 at the tree `(A>(!(B+C)))`. -/
theorem parseExpression_render_roundtrip_witness :
    render (.BinaryExpression '>' (.Variable 'A')
      (.UnaryExpression '!' (.BinaryExpression '+' (.Variable 'B') (.Variable 'C')))) =
        "(A>(!(B+C)))".toList ∧
    parseExpression "(A>(!(B+C)))".toList =
      .ok (some (.BinaryExpression '>' (.Variable 'A')
        (.UnaryExpression '!' (.BinaryExpression '+' (.Variable 'B') (.Variable 'C'))))) :=
  ⟨by decide,
   parseExpression_render_roundtrip (.BinaryExpression '>' (.Variable 'A')
      (.UnaryExpression '!' (.BinaryExpression '+' (.Variable 'B') (.Variable 'C'))))
      (by decide)⟩

/-! ## Independence of absent letters, and duality -/

/-- C19: for a tree with letters in `A..Z`, two interpretations that agree on
every letter of the occurrence set of the tree give the same result of
`evaluate`; the values of the other letters have no influence. -/
theorem evaluate_depends_on_occurrence_set (e : BooleanExpression)
    (h : lettersValid e = true) (I J : BooleanInterpretation)
    (hIJ : ∀ i : Fin CHARACTERS_COUNT, e.vars i = true → I.vars i = J.vars i) :
    e.evaluate I = e.evaluate J :=
  evaluate_congr e h I J hIJ

/-- Witness of C19 at the tree `(A v (!A))` and two interpretations that
differ on every letter but `A`. -/
theorem evaluate_depends_on_occurrence_set_witness :
    exampleTautology.evaluate { vars := fun _ => false } =
      exampleTautology.evaluate { vars := fun i => decide (i.val ≠ 0) } :=
  evaluate_depends_on_occurrence_set exampleTautology (by decide) _ _ (by decide)

theorem value_unary_neg (e : BooleanExpression) (h : lettersValid e = true)
    (I : BooleanInterpretation) :
    value (.UnaryExpression '!' e) I = !value e I := by
  have h1 := evaluate_unary '!' e I
  rw [evaluate_eq_value e h I] at h1
  simp only [value, h1, if_true, Except.map]

theorem checkAllVariations_unary_neg (e : BooleanExpression) (h : lettersValid e = true)
    (expectedValue : Bool) :
    checkAllVariations (some (.UnaryExpression '!' e)) expectedValue =
      checkAllVariations (some e) (!expectedValue) := by
  have hu : lettersValid (.UnaryExpression '!' e) = true := h
  have hvars : (BooleanExpression.UnaryExpression '!' e).vars = e.vars := rfl
  have hcount : variationsCount (.UnaryExpression '!' e) = variationsCount e := rfl
  simp only [checkAllVariations, checkAllVariationsLoop_eq _ hu, checkAllVariationsLoop_eq e h,
    hvars, hcount, value_unary_neg e h]
  congr 2
  funext i
  cases value e { vars := fillLoop e.vars (List.finRange CHARACTERS_COUNT) i fun _ => false }
    <;> cases expectedValue <;> rfl

theorem checkAllVariations_not_both (e : BooleanExpression) (h : lettersValid e = true) :
    ¬ (checkAllVariations (some e) true = .ok true ∧
       checkAllVariations (some e) false = .ok true) := by
  rintro ⟨ht, hf⟩
  have h1 := (checkAllVariations_iff_all e h true).mp ht {}
  have h2 := (checkAllVariations_iff_all e h false).mp hf {}
  rw [h1] at h2
  exact absurd h2 (by simp)

/-- C20: for a tree `e` with letters in `A..Z`, `isTautology` of
`Unary('!', e)` is `isContradiction` of `e`, `isContradiction` of
`Unary('!', e)` is `isTautology` of `e`, and `isTautology` and
`isContradiction` of `e` are not both true. -/
theorem verdicts_dual (e : BooleanExpression) (h : lettersValid e = true) :
    (ExpressionCalculator.mk (some (.UnaryExpression '!' e))).isTautology =
      (ExpressionCalculator.mk (some e)).isContradiction ∧
    (ExpressionCalculator.mk (some (.UnaryExpression '!' e))).isContradiction =
      (ExpressionCalculator.mk (some e)).isTautology ∧
    ¬ ((ExpressionCalculator.mk (some e)).isTautology = .ok true ∧
       (ExpressionCalculator.mk (some e)).isContradiction = .ok true) :=
  ⟨checkAllVariations_unary_neg e h true, checkAllVariations_unary_neg e h false,
   checkAllVariations_not_both e h⟩

/-- Witness of C20 at the tree `(A v (!A))`. -/
theorem verdicts_dual_witness :
    (ExpressionCalculator.mk (some (.UnaryExpression '!' exampleTautology))).isContradiction =
      .ok true ∧
    (ExpressionCalculator.mk (some (.UnaryExpression '!' exampleTautology))).isTautology =
      .ok false :=
  have h := verdicts_dual exampleTautology (by decide)
  ⟨h.2.1.trans (by decide), h.1.trans (by decide)⟩

end BoolCalc
